import Mathlib

/-!
# History ingestion and command lifecycle

A shallow embedding of `internal/processors/HistoryIngestor.go` (the history
parser, the import classifier and the ingestion loop) and of the delete action
of `internal/models/command/command_list.go`, followed by theorems about them.

Conventions of the embedding:

* a Go `string` is a list of runes (`Str`); history text is taken to be valid
  UTF-8, so byte offsets that the source computes inside the ASCII header
  `": "` coincide with rune offsets;
* `time.Now()` is an input: every function that reads the clock takes the
  reading as an argument;
* pointers that the source mutates become values that are passed in and
  returned;
* `int` is 64 bits wide.
-/

namespace processors

/-- A Go string, one `Char` per rune. -/
abbrev Str := List Char

/-! ## Package `strings` -/

namespace strings

/-- Go `strings.HasPrefix`. -/
def HasPrefix (s pre : Str) : Bool := pre.isPrefixOf s

/-- Go `strings.HasSuffix`. -/
def HasSuffix (s suf : Str) : Bool := suf.reverse.isPrefixOf s.reverse

/-- Position of the first occurrence of the rune `sep` at or after offset `i`,
or `-1`. -/
def indexFrom (sep : Char) : Str → Nat → Int
  | [], _ => -1
  | c :: cs, i => if c = sep then (i : Int) else indexFrom sep cs (i + 1)

/-- Go `strings.Index` for a one-rune separator (the only use in the source is
`strings.Index(line, ";")`). -/
def Index (s : Str) (sep : Char) : Int := indexFrom sep s 0

/-- Go `strings.Split` for a one-rune separator (the only use in the source is
`strings.Split(timestampsPart, ":")`). -/
def Split : Str → Char → List Str
  | [], _ => [[]]
  | c :: cs, sep =>
    if c = sep then [] :: Split cs sep
    else
      match Split cs sep with
      | [] => [[c]]
      | f :: fs => (c :: f) :: fs

/-- Go `strings.TrimSuffix`. -/
def TrimSuffix (s suf : Str) : Str :=
  if HasSuffix s suf then s.take (s.length - suf.length) else s

/-- Go `strings.TrimLeft`: drop the leading runes contained in `cutset`. -/
def TrimLeft (s cutset : Str) : Str := s.dropWhile (fun c => cutset.contains c)

/-- Go `strings.TrimRight`: drop the trailing runes contained in `cutset`. -/
def TrimRight (s cutset : Str) : Str :=
  (s.reverse.dropWhile (fun c => cutset.contains c)).reverse

end strings

namespace unicode

/-- Go `unicode.IsSpace`: the runes with the Unicode White_Space property. -/
def IsSpace (r : Char) : Bool :=
  let n := r.toNat
  (9 ≤ n && n ≤ 13) || n == 32 || n == 0x85 || n == 0xA0 || n == 0x1680 ||
  (0x2000 ≤ n && n ≤ 0x200a) || n == 0x2028 || n == 0x2029 || n == 0x202f ||
  n == 0x205f || n == 0x3000

end unicode

namespace strings

/-- Go `strings.TrimSpace`: drop leading and trailing white space. -/
def TrimSpace (s : Str) : Str :=
  ((s.dropWhile unicode.IsSpace).reverse.dropWhile unicode.IsSpace).reverse

end strings

/-! ## Package `strconv` -/

namespace strconv

/-- The two errors of the numeric conversions. -/
inductive NumError where
  | ErrSyntax
  | ErrRange
deriving DecidableEq, Repr

/-- The digit loop of `strconv.ParseUint` in base 10: `n` is the value read so
far, `maxVal = 2^bitSize - 1`. The source tests `n1 < n || n1 > maxVal` on
`uint64`; with `n` below the cutoff the sum wraps exactly when the unbounded
`n1` exceeds `2^64 - 1`, which `n1 > maxVal` covers. -/
def parseUintLoop (maxVal : Nat) : Str → Nat → Nat × Option NumError
  | [], n => (n, none)
  | c :: cs, n =>
    if 48 ≤ c.toNat ∧ c.toNat ≤ 57 then
      if n ≥ (2 ^ 64 - 1) / 10 + 1 then (maxVal, some NumError.ErrRange)
      else
        let n1 := n * 10 + (c.toNat - 48)
        if n1 > maxVal then (maxVal, some NumError.ErrRange)
        else parseUintLoop maxVal cs n1
    else (0, some NumError.ErrSyntax)

/-- Go `strconv.ParseUint(s, 10, bitSize)`. -/
def ParseUint (s : Str) (bitSize : Nat) : Nat × Option NumError :=
  if s = [] then (0, some NumError.ErrSyntax)
  else parseUintLoop (2 ^ bitSize - 1) s 0

/-- Go `strconv.ParseInt(s, 10, bitSize)`. -/
def ParseInt (s : Str) (bitSize : Nat) : Int × Option NumError :=
  match s with
  | [] => (0, some NumError.ErrSyntax)
  | c :: cs =>
    let neg : Bool := c = '-'
    let body : Str := if c = '+' ∨ c = '-' then cs else c :: cs
    match ParseUint body bitSize with
    | (_, some NumError.ErrSyntax) => (0, some NumError.ErrSyntax)
    | (un, _) =>
      let cutoff : Nat := 2 ^ (bitSize - 1)
      if !neg && un ≥ cutoff then ((cutoff : Int) - 1, some NumError.ErrRange)
      else if neg && un > cutoff then (-(cutoff : Int), some NumError.ErrRange)
      else (if neg then -(un : Int) else (un : Int), none)

/-- Width of Go `int`. -/
def IntSize : Nat := 64

/-- Go `strconv.Atoi`: `ParseInt(s, 10, 0)` converted to `int` (its fast path
for short strings computes the same result). -/
def Atoi (s : Str) : Int × Option NumError := ParseInt s IntSize

end strconv

/-! ## Package `time` -/

/-- A Go `time.Time` without monotonic clock reading: seconds since
January 1, year 1 00:00:00 UTC and nanoseconds within the second. Every time
the ingestor handles went through `.UTC()` or `time.Parse`, which carry no
monotonic reading. -/
structure Time where
  sec : Int
  nsec : Nat
deriving DecidableEq, Repr

namespace Time

/-- Seconds from year 1 to the Unix epoch (`unixToInternal`). -/
def unixToInternal : Int := 62135596800

/-- Two's complement wrap of an `int64` sum. -/
def wrapInt64 (x : Int) : Int := (x + 2 ^ 63) % 2 ^ 64 - 2 ^ 63

/-- The zero value `time.Time{}`. -/
def zero : Time := ⟨0, 0⟩

/-- Go `time.Unix(sec, 0)`. -/
def Unix (s : Int) : Time := ⟨wrapInt64 (s + unixToInternal), 0⟩

/-- Go `Time.IsZero`. -/
def IsZero (t : Time) : Bool := t.sec == 0 && t.nsec == 0

/-- Go `Time.After`. -/
def After (t u : Time) : Bool :=
  decide (t.sec > u.sec) || (t.sec == u.sec && decide (t.nsec > u.nsec))

end Time

/-! ## `HistoryIngestor.go` -/

/-- Source constant `ExtendedCommandPrefixLen`. -/
def ExtendedCommandPrefixLen : Nat := 2

/-- Source constant `timestampFieldsCount`. -/
def timestampFieldsCount : Nat := 2

/-- Source struct `HistoryCommand`. -/
structure HistoryCommand where
  Timestamp : Time
  Command : Str
  Elapsed : Int
  ParseFinished : Bool
deriving DecidableEq, Repr

/-- The errors of `ParseTimestamp`. -/
inductive TimestampError where
  | errInvalidTimestampFormat
  | errInvalidTimestamp
  | errInvalidElapsedFormat
deriving DecidableEq, Repr

/-- Source function `convertUnixToUTC`. -/
def convertUnixToUTC (unixTimestamp : Int) : Time := Time.Unix unixTimestamp

/-- Source function `ParseTimestamp`. -/
def ParseTimestamp (timestampsPart : Str) : Time × Int × Option TimestampError :=
  let timestampFields := strings.Split timestampsPart ':'
  if timestampFields.length ≠ timestampFieldsCount then
    (Time.zero, 0, some TimestampError.errInvalidTimestampFormat)
  else
    match strconv.ParseInt (timestampFields.getD 0 []) 64 with
    | (_, some _) => (Time.zero, 0, some TimestampError.errInvalidTimestamp)
    | (startTimestamp, none) =>
      match strconv.Atoi (timestampFields.getD 1 []) with
      | (_, some _) =>
        (convertUnixToUTC startTimestamp, 0, some TimestampError.errInvalidElapsedFormat)
      | (elapsed, none) => (convertUnixToUTC startTimestamp, elapsed, none)

/-- Source function `parseFirstHistoryLine`; `now` is the reading of
`time.Now().UTC()`. The result is
`(timestamp, elapsed, commandPart, isExtendedFormat)`. -/
def parseFirstHistoryLine (now : Time) (line : Str) : Time × Int × Str × Bool :=
  if !strings.HasPrefix line [':', ' '] then (now, 0, line, false)
  else
    let semicolonPos := strings.Index line ';'
    if semicolonPos ≤ (ExtendedCommandPrefixLen : Int) then (now, 0, line, false)
    else
      let timestampsPart :=
        (line.take semicolonPos.toNat).drop ExtendedCommandPrefixLen
      let potentialCommandPart := line.drop (semicolonPos.toNat + 1)
      match ParseTimestamp timestampsPart with
      | (parsedTimestamp, parsedElapsed, none) =>
        (parsedTimestamp, parsedElapsed, potentialCommandPart, true)
      | (_, _, some _) => (now, 0, line, false)

/-- Source function `removeControlCharacters`: delete every match of the
regular expression `[^\x00-\x7F]`, that is every rune above `0x7F`. -/
def removeControlCharacters (command : Str) : Str :=
  command.filter (fun c => decide (c.toNat ≤ 0x7F))

/-- Source function `cleanCommand`. -/
def cleanCommand (command : Str) : Str :=
  let command := removeControlCharacters command
  let command := strings.TrimLeft command ['\n']
  let command := strings.TrimRight command ['\n']
  strings.TrimSpace command

/-- Source function `processHistoryLine`. The builder and the command pointer
are passed in and returned; the returned command is the one `*cmd` points to
afterwards (never nil). -/
def processHistoryLine (now : Time) (line : Str) (commandBuilder : Str)
    (cmd : Option HistoryCommand) : Str × HistoryCommand :=
  let start : Str × HistoryCommand :=
    match cmd with
    | some c => (line, c)
    | none =>
      match parseFirstHistoryLine now line with
      | (ts, el, part, _) => (part, ⟨ts, [], el, false⟩)
  let part := start.1
  let currentCommand := start.2
  if strings.HasSuffix part ['\\'] then
    let part := strings.TrimSuffix part ['\\']
    let part := strings.TrimRight part [' ', '\t']
    (commandBuilder ++ part ++ ['\n'], currentCommand)
  else
    let commandBuilder := commandBuilder ++ part
    (commandBuilder,
      { currentCommand with
        Command := cleanCommand commandBuilder, ParseFinished := true })


/-- Source type `CommandImportedStatus` (a Go `int`). -/
abbrev CommandImportedStatus := Int

/-- Source constant `CommandImportedStatusNew`. -/
def CommandImportedStatusNew : CommandImportedStatus := 0
/-- Source constant `CommandImportedStatusSkipped`. -/
def CommandImportedStatusSkipped : CommandImportedStatus := 1
/-- Source constant `CommandImportedStatusFilteredOut`. -/
def CommandImportedStatusFilteredOut : CommandImportedStatus := 2
/-- Source constant `CommandImportedStatusAlreadyExists`. -/
def CommandImportedStatusAlreadyExists : CommandImportedStatus := 3
/-- Source constant `CommandImportedStatusError`. -/
def CommandImportedStatusError : CommandImportedStatus := 4
/-- Source constant `CommandImportedStatusInProgress`. -/
def CommandImportedStatusInProgress : CommandImportedStatus := 5

/-- Source struct `HistoryIngestor`: the six counters. -/
structure HistoryIngestor where
  parsedCmdCount : Nat
  importedCmdCount : Nat
  skippedCmdCount : Nat
  errorCmdCount : Nat
  alreadyExistsCmdCount : Nat
  filteredOutCmdCount : Nat
deriving DecidableEq, Repr

/-- Source function `NewHistoryIngestor`. -/
def NewHistoryIngestor : HistoryIngestor := ⟨0, 0, 0, 0, 0, 0⟩

/-- Source method `updateStats`. -/
def updateStats (h : HistoryIngestor) (importStatus : CommandImportedStatus) :
    HistoryIngestor :=
  let h :=
    if importStatus ≠ CommandImportedStatusInProgress then
      { h with parsedCmdCount := h.parsedCmdCount + 1 }
    else h
  if importStatus = CommandImportedStatusNew then
    { h with importedCmdCount := h.importedCmdCount + 1 }
  else if importStatus = CommandImportedStatusError then
    { h with errorCmdCount := h.errorCmdCount + 1 }
  else if importStatus = CommandImportedStatusFilteredOut then
    { h with filteredOutCmdCount := h.filteredOutCmdCount + 1 }
  else if importStatus = CommandImportedStatusAlreadyExists then
    { h with alreadyExistsCmdCount := h.alreadyExistsCmdCount + 1 }
  else if importStatus = CommandImportedStatusSkipped then
    { h with skippedCmdCount := h.skippedCmdCount + 1 }
  else h

/-- The decision function handed to `ParseBashHistory`
(`func(HistoryCommand) (CommandImportedStatus, error)`): it may read and change
a state of type `σ` (the store behind it) and returns a status and possibly an
error of type `ε`. -/
abbrev Callback (σ ε : Type) :=
  HistoryCommand → σ → (CommandImportedStatus × Option ε) × σ

/-- Source method `handleCommand` (the file path and the line number only feed
the debug log and are left out). -/
def handleCommand {σ ε : Type} (fromTimestamp : Time) (cmd : HistoryCommand)
    (callback : Callback σ ε) (s : σ) : (CommandImportedStatus × Option ε) × σ :=
  if !cmd.ParseFinished then ((CommandImportedStatusInProgress, none), s)
  else if strings.TrimSpace cmd.Command = [] then
    ((CommandImportedStatusSkipped, none), s)
  else if cmd.Timestamp.IsZero || cmd.Timestamp.After fromTimestamp then
    match callback cmd s with
    | ((importedStatus, some err), s1) => ((importedStatus, some err), s1)
    | ((importedStatus, none), s1) => ((importedStatus, none), s1)
  else ((CommandImportedStatusSkipped, none), s)

/-- The variables of `ParseBashHistory` that live across loop iterations,
together with the state behind the decision function. `handled` is an
observation log: the value of `*currentCommand` at each call of
`handleCommand`, oldest first; nothing reads it. -/
structure ScanState (σ : Type) where
  h : HistoryIngestor
  commandBuilder : Str
  currentCommand : Option HistoryCommand
  lineNumber : Nat
  store : σ
  handled : List HistoryCommand
deriving DecidableEq

/-- The `for scanner.Scan()` loop of `ParseBashHistory` over the lines that the
scanner delivers. `clock n` is what `time.Now().UTC()` reads while line number
`n` is processed. The result carries the error that ended the loop early, if
any. -/
def scanLines {σ ε : Type} (clock : Nat → Time) (fromTimestamp : Time)
    (callback : Callback σ ε) : List Str → ScanState σ → ScanState σ × Option ε
  | [], st => (st, none)
  | line :: rest, st =>
    let lineNumber := st.lineNumber + 1
    if line = [] ∧ st.currentCommand = none then
      scanLines clock fromTimestamp callback rest { st with lineNumber := lineNumber }
    else
      match processHistoryLine (clock lineNumber) line st.commandBuilder
          st.currentCommand with
      | (builder, currentCommand) =>
        match handleCommand fromTimestamp currentCommand callback st.store with
        | ((importStatus, some err), store) =>
          ({ h := updateStats st.h importStatus
             commandBuilder := builder
             currentCommand := some currentCommand
             lineNumber := lineNumber
             store := store
             handled := st.handled ++ [currentCommand] }, some err)
        | ((importStatus, none), store) =>
          if currentCommand.ParseFinished then
            scanLines clock fromTimestamp callback rest
              { h := updateStats st.h importStatus
                commandBuilder := []
                currentCommand := none
                lineNumber := lineNumber
                store := store
                handled := st.handled ++ [currentCommand] }
          else
            scanLines clock fromTimestamp callback rest
              { h := updateStats st.h importStatus
                commandBuilder := builder
                currentCommand := some currentCommand
                lineNumber := lineNumber
                store := store
                handled := st.handled ++ [currentCommand] }

/-- The part of `ParseBashHistory` after the loop: a command still in progress
at the end of the input is finalized and handed to `handleCommand`. -/
def finalizeCommand {σ ε : Type} (fromTimestamp : Time) (callback : Callback σ ε)
    (st : ScanState σ) : ScanState σ × Option ε :=
  match st.currentCommand with
  | none => (st, none)
  | some c =>
    let currentCommand : HistoryCommand :=
      { c with ParseFinished := true, Command := st.commandBuilder }
    match handleCommand fromTimestamp currentCommand callback st.store with
    | ((importStatus, err), store) =>
      ({ st with
         h := updateStats st.h importStatus
         currentCommand := some currentCommand
         store := store
         handled := st.handled ++ [currentCommand] }, err)

/-- The state in which `ParseBashHistory` enters its loop. -/
def ScanState.start {σ : Type} (h : HistoryIngestor) (store : σ) : ScanState σ :=
  ⟨h, [], none, 0, store, []⟩

/-- Source method `ParseBashHistory` on a history file that opens and reads
without I/O error and holds the lines `lines`. -/
def ParseBashHistory {σ ε : Type} (h : HistoryIngestor) (clock : Nat → Time)
    (lines : List Str) (fromTimestamp : Time) (callback : Callback σ ε)
    (store : σ) : ScanState σ × Option ε :=
  match scanLines clock fromTimestamp callback lines (ScanState.start h store) with
  | (st, some err) => (st, some err)
  | (st, none) => finalizeCommand fromTimestamp callback st

end processors

/-! ## `command_list.go`: the delete action -/

namespace command

open processors

/-- Modelled from the spec: `dbmodels.CommandStatus`, whose declaration is not
among the sources; the six status values of a persisted command. -/
inductive CommandStatus where
  | Imported
  | Bookmarked
  | Saved
  | Obsolete
  | Archived
  | Deleted
deriving DecidableEq, Repr

/-- Modelled from the spec: `dbmodels.LintStatus`, whose declaration is not
among the sources; the five lint verdicts. -/
inductive LintStatus where
  | OK
  | Warning
  | Error
  | ShellcheckFailed
  | NotAvailable
deriving DecidableEq, Repr

/-- Modelled from the spec: `dbmodels.Command`, whose declaration is not among
the sources; the fields of a persisted command. -/
structure Command where
  ID : Int
  Title : Str
  Description : Str
  Script : Str
  Elapsed : Int
  CreationDatetime : Time
  ModificationDatetime : Time
  Status : CommandStatus
  LintStatus : LintStatus
deriving DecidableEq, Repr

/-- What the confirmed delete action returns: `tui.ReportError` with the
wrapped error, or the reload message carrying the row to select next. -/
inductive DeleteResult (ε : Type) where
  | ReportError (err : ε)
  | Reload (RowID : Int) (deletedID : Int)
deriving DecidableEq, Repr

/-- The action that `handleDeleteRow` passes to `tui.YesNoPrompt`, run when the
user confirms. `UpdateCommand` stands for `DBService.UpdateCommand`, which is
not among the sources: given the record behind the pointer and the store `δ`,
it answers with an error or none and hands back the record as it leaves it.
`nextRowID` is `GetNextRowIDRelativeToCurrentRow()`. The result is the record
as the action leaves it, the message returned and the store. -/
def deleteAction {δ ε : Type} (UpdateCommand : Command → δ → (Option ε × Command) × δ)
    (nextRowID : Int) (cmd : Command) (db : δ) : Command × DeleteResult ε × δ :=
  let originalStatus := cmd.Status
  let cmd := { cmd with Status := CommandStatus.Deleted }
  match UpdateCommand cmd db with
  | ((some err, cmd), db) =>
    let cmd := { cmd with Status := originalStatus }
    (cmd, DeleteResult.ReportError err, db)
  | ((none, cmd), db) => (cmd, DeleteResult.Reload nextRowID cmd.ID, db)

/-- Source method `handleDeleteRow`: nothing for a nil row, else the
confirmation prompt, represented by the action it runs on "yes". -/
def handleDeleteRow {δ ε : Type} (UpdateCommand : Command → δ → (Option ε × Command) × δ)
    (nextRowID : Int) (row : Option Command) :
    Option (δ → Command × DeleteResult ε × δ) :=
  match row with
  | none => none
  | some cmd => some (deleteAction UpdateCommand nextRowID cmd)

/-- A persistence write for the examples: it fails exactly when the store flag
is `false` and leaves the record alone. -/
def flagUpdate : Command → Bool → (Option Unit × Command) × Bool :=
  fun c ok => ((if ok then none else some (), c), ok)

end command

/-! ## Vocabulary of the claims -/

namespace processors

/-- The text between the prefix `": "` and the first semicolon of a line. -/
def headerText (line : Str) : Str := (line.drop 2).takeWhile (fun c => c != ';')

/-- A malformed header, in the words of the specification: no semicolon after
index 2, or the header text is not exactly two colon-separated fields that both
parse as integers. -/
def malformedHeader (line : Str) : Bool :=
  !(line.drop 3).contains ';' ||
  !(match strings.Split (headerText line) ':' with
    | [f0, f1] => (strconv.ParseInt f0 64).2.isNone && (strconv.Atoi f1).2.isNone
    | _ => false)

/-- Go `strings.Join`. -/
def strings.Join : List Str → Str → Str
  | [], _ => []
  | [a], _ => a
  | a :: b :: rest, sep => a ++ sep ++ strings.Join (b :: rest) sep

/-- What a continuation line contributes to the command body: the line without
its one trailing backslash and then without trailing spaces and tabs. -/
def continuationFragment (line : Str) : Str :=
  strings.TrimRight (strings.TrimSuffix line ['\\']) [' ', '\t']

/-- The scan loop followed by the end-of-input step, from any loop state
(`ParseBashHistory` is `runFrom` at the start state). -/
def runFrom {σ ε : Type} (clock : Nat → Time) (fromTimestamp : Time)
    (callback : Callback σ ε) (lines : List Str) (st : ScanState σ) :
    ScanState σ × Option ε :=
  match scanLines clock fromTimestamp callback lines st with
  | (st, some err) => (st, some err)
  | (st, none) => finalizeCommand fromTimestamp callback st

/-- A decision function that stores every command it receives, in order, and
answers `New` without error. -/
def storeAll {ε : Type} : Callback (List HistoryCommand) ε :=
  fun cmd store => ((CommandImportedStatusNew, none), store ++ [cmd])

/-- The decision function `callback` with a log of the commands it was invoked
with, oldest first. -/
def recording {σ ε : Type} (callback : Callback σ ε) : Callback (σ × List HistoryCommand) ε :=
  fun cmd s =>
    match callback cmd s.1 with
    | (r, s1) => (r, (s1, s.2 ++ [cmd]))

/-- Counter by counter, `a` is at most `b`. -/
def countersLe (a b : HistoryIngestor) : Prop :=
  a.parsedCmdCount ≤ b.parsedCmdCount ∧ a.importedCmdCount ≤ b.importedCmdCount ∧
  a.skippedCmdCount ≤ b.skippedCmdCount ∧ a.errorCmdCount ≤ b.errorCmdCount ∧
  a.alreadyExistsCmdCount ≤ b.alreadyExistsCmdCount ∧
  a.filteredOutCmdCount ≤ b.filteredOutCmdCount

/-- A decision function that stores what it receives and fails on the command
whose text is `bad`. -/
def failOn (bad : Str) : Callback (List HistoryCommand) Unit :=
  fun cmd store =>
    if cmd.Command = bad then ((CommandImportedStatusError, some ()), store ++ [cmd])
    else ((CommandImportedStatusNew, none), store ++ [cmd])

/-- The creation time that `DBService.SaveCommand` stores for a command and
`GetMaxCommandTimestamp` reads back: the timestamp in the layout
`time.DateTime`, which keeps whole seconds. -/
def storedCreation (c : HistoryCommand) : Time := ⟨c.Timestamp.sec, 0⟩

/-- The watermark an ingestion pass starts from
(`DBService.GetMaxCommandTimestamp`): the maximum stored creation time, the
zero time for an empty store. -/
def maxStoredTimestamp (store : List HistoryCommand) : Time :=
  store.foldl (fun m c => if (storedCreation c).After m then storedCreation c else m) Time.zero

/-- A first ingestion pass: empty store, zero watermark, every command handed
over is stored and answered `New`. -/
def firstPass (clock : Nat → Time) (lines : List Str) :
    ScanState (List HistoryCommand) × Option Unit :=
  ParseBashHistory NewHistoryIngestor clock lines Time.zero storeAll []

/-- A later pass over the same source with the store carried over and the
watermark read from it. -/
def secondPass (h : HistoryIngestor) (clock : Nat → Time) (lines : List Str)
    (store : List HistoryCommand) : ScanState (List HistoryCommand) × Option Unit :=
  ParseBashHistory h clock lines (maxStoredTimestamp store) storeAll store

/-- The line starts a command with a well-formed extended header whose
timestamp is not the zero time. -/
def stampedHeader (line : Str) : Bool :=
  match parseFirstHistoryLine Time.zero line with
  | (ts, _, _, ext) => ext && !ts.IsZero

/-- Every command of the source starts with a well-formed extended header whose
timestamp is not the zero time; `busy` tells whether a command is in progress
when the first line arrives. -/
def stampedSource : Bool → List Str → Bool
  | _, [] => true
  | false, line :: rest =>
    if line = [] then stampedSource false rest
    else stampedHeader line && stampedSource (strings.HasSuffix line ['\\']) rest
  | true, line :: rest => stampedSource (strings.HasSuffix line ['\\']) rest

/-- The commands that a pass hands to `handleCommand` when no error ends it,
from line number `n`, buffer `builder` and command in progress `cur`: the loop
of `ParseBashHistory` without the classifier. -/
def parsedCommands (clock : Nat → Time) :
    List Str → Nat → Str → Option HistoryCommand → List HistoryCommand
  | [], _, builder, cur =>
    match cur with
    | none => []
    | some c => [{ c with ParseFinished := true, Command := builder }]
  | line :: rest, n, builder, cur =>
    if line = [] ∧ cur = none then parsedCommands clock rest (n + 1) builder cur
    else
      match processHistoryLine (clock (n + 1)) line builder cur with
      | (b, c) =>
        c :: (if c.ParseFinished then parsedCommands clock rest (n + 1) [] none
              else parsedCommands clock rest (n + 1) b (some c))

/-- The test of `handleCommand` under which a command reaches the decision
function. -/
def reachesCallback (fromTimestamp : Time) (cmd : HistoryCommand) : Bool :=
  cmd.ParseFinished && !(strings.TrimSpace cmd.Command == []) &&
    (cmd.Timestamp.IsZero || cmd.Timestamp.After fromTimestamp)

/-- The decimal text of a natural number (Go `strconv.FormatUint(n, 10)`). -/
def strconv.FormatUint (n : Nat) : Str :=
  if n = 0 then ['0'] else (Nat.digits 10 n).reverse.map (fun d => Char.ofNat (48 + d))

/-- The decimal text of an integer (Go `strconv.FormatInt(i, 10)`). -/
def strconv.FormatInt (i : Int) : Str :=
  if i < 0 then '-' :: strconv.FormatUint i.natAbs else strconv.FormatUint i.natAbs

/-- The status is one of the six values the source defines. -/
def definedStatus (s : CommandImportedStatus) : Prop :=
  s = CommandImportedStatusNew ∨ s = CommandImportedStatusSkipped ∨
  s = CommandImportedStatusFilteredOut ∨ s = CommandImportedStatusAlreadyExists ∨
  s = CommandImportedStatusError ∨ s = CommandImportedStatusInProgress

/-- The counters balance: every parsed command is in exactly one category. -/
def countersBalanced (h : HistoryIngestor) : Prop :=
  h.parsedCmdCount = h.importedCmdCount + h.skippedCmdCount + h.filteredOutCmdCount +
    h.alreadyExistsCmdCount + h.errorCmdCount

end processors

/-! ## Lemmas about the string helpers -/

namespace processors

theorem indexFrom_append (sep : Char) (a b : Str) (i : Nat) (h : sep ∉ a) :
    strings.indexFrom sep (a ++ sep :: b) i = ((i + a.length : Nat) : Int) := by
  induction a generalizing i with
  | nil => simp [strings.indexFrom]
  | cons x xs ih =>
    have hx : x ≠ sep := fun e => h (by simp [e])
    have hxs : sep ∉ xs := fun e => h (by simp [e])
    show strings.indexFrom sep (x :: (xs ++ sep :: b)) i = _
    rw [strings.indexFrom, if_neg hx, ih (i + 1) hxs]
    simp only [List.length_cons]
    congr 1
    omega

theorem indexFrom_not_mem (sep : Char) (a : Str) (i : Nat) (h : sep ∉ a) :
    strings.indexFrom sep a i = -1 := by
  induction a generalizing i with
  | nil => simp [strings.indexFrom]
  | cons x xs ih =>
    have hx : x ≠ sep := fun e => h (by simp [e])
    have hxs : sep ∉ xs := fun e => h (by simp [e])
    simp only [strings.indexFrom, hx, if_false, ih (i + 1) hxs]

theorem Split_not_mem (sep : Char) (s : Str) (h : sep ∉ s) :
    strings.Split s sep = [s] := by
  induction s with
  | nil => simp [strings.Split]
  | cons x xs ih =>
    have hx : x ≠ sep := fun e => h (by simp [e])
    have hxs : sep ∉ xs := fun e => h (by simp [e])
    simp [strings.Split, hx, ih hxs]

theorem Split_append (sep : Char) (a b : Str) (h : sep ∉ a) :
    strings.Split (a ++ sep :: b) sep = a :: strings.Split b sep := by
  induction a with
  | nil => simp [strings.Split]
  | cons x xs ih =>
    have hx : x ≠ sep := fun e => h (by simp [e])
    have hxs : sep ∉ xs := fun e => h (by simp [e])
    simp [strings.Split, hx, ih hxs]

theorem Split_ne_nil (sep : Char) (s : Str) : strings.Split s sep ≠ [] := by
  cases s with
  | nil => simp [strings.Split]
  | cons x xs =>
    simp only [strings.Split]
    split
    · simp
    · split <;> simp

/-- A rune that `strconv.ParseInt` accepts in base 10: a sign or a digit. -/
theorem parseUintLoop_digits (maxVal : Nat) (s : Str) (n v : Nat)
    (h : strconv.parseUintLoop maxVal s n = (v, none)) :
    ∀ c ∈ s, 48 ≤ c.toNat ∧ c.toNat ≤ 57 := by
  induction s generalizing n with
  | nil => simp
  | cons x xs ih =>
    intro c hc
    simp only [strconv.parseUintLoop] at h
    split at h
    · rename_i hx
      split at h
      · simp at h
      · split at h
        · simp at h
        · rcases List.mem_cons.mp hc with rfl | hc
          · exact hx
          · exact ih _ h c hc
    · simp at h

theorem parseUintLoop_range (maxVal : Nat) (s : Str) (n v : Nat)
    (h : strconv.parseUintLoop maxVal s n = (v, some strconv.NumError.ErrRange)) :
    v = maxVal := by
  induction s generalizing n with
  | nil => simp [strconv.parseUintLoop] at h
  | cons x xs ih =>
    simp only [strconv.parseUintLoop] at h
    split at h
    · split at h
      · simp at h; exact h.symm
      · split at h
        · simp at h; exact h.symm
        · exact ih _ h
    · simp at h

theorem ParseUint_digits (s : Str) (bitSize v : Nat)
    (h : strconv.ParseUint s bitSize = (v, none)) :
    ∀ c ∈ s, 48 ≤ c.toNat ∧ c.toNat ≤ 57 := by
  simp only [strconv.ParseUint] at h
  split at h
  · simp at h
  · exact parseUintLoop_digits _ s 0 v h

theorem ParseUint_range (s : Str) (bitSize v : Nat)
    (h : strconv.ParseUint s bitSize = (v, some strconv.NumError.ErrRange)) :
    v = 2 ^ bitSize - 1 := by
  simp only [strconv.ParseUint] at h
  split at h
  · simp at h
  · exact parseUintLoop_range _ s 0 v h

/-- When `ParseInt` succeeds, the text after the optional sign went through
`ParseUint` without error. -/
theorem ParseInt_ok (x : Char) (xs : Str) (v : Int)
    (h : strconv.ParseInt (x :: xs) 64 = (v, none)) :
    ∃ un, strconv.ParseUint (if x = '+' ∨ x = '-' then xs else x :: xs) 64 = (un, none) := by
  simp only [strconv.ParseInt] at h
  split at h
  · simp at h
  · rename_i un o hne hU
    cases o with
    | none => exact ⟨un, hU⟩
    | some e =>
      exfalso
      cases e with
      | ErrSyntax => exact hne rfl
      | ErrRange =>
        have hun := ParseUint_range _ _ _ hU
        subst hun
        by_cases hx : x = '-'
        · simp [hx] at h
        · simp [hx] at h

theorem ParseInt_chars (s : Str) (v : Int)
    (h : strconv.ParseInt s 64 = (v, none)) :
    ∀ c ∈ s, c = '+' ∨ c = '-' ∨ (48 ≤ c.toNat ∧ c.toNat ≤ 57) := by
  cases s with
  | nil => simp
  | cons x xs =>
    obtain ⟨un, hU⟩ := ParseInt_ok x xs v h
    have hd := ParseUint_digits _ _ _ hU
    intro c hc
    by_cases hx : x = '+' ∨ x = '-'
    · rw [if_pos hx] at hd
      rcases List.mem_cons.mp hc with rfl | hc
      · rcases hx with hx | hx
        · exact Or.inl hx
        · exact Or.inr (Or.inl hx)
      · exact Or.inr (Or.inr (hd c hc))
    · rw [if_neg hx] at hd
      exact Or.inr (Or.inr (hd c hc))

theorem ParseInt_no_sep (s : Str) (v : Int)
    (h : strconv.ParseInt s 64 = (v, none)) : ':' ∉ s ∧ ';' ∉ s := by
  have hc := ParseInt_chars s v h
  constructor
  · intro hm
    rcases hc _ hm with h1 | h1 | h1
    · exact absurd h1 (by decide)
    · exact absurd h1 (by decide)
    · exact absurd h1 (by decide)
  · intro hm
    rcases hc _ hm with h1 | h1 | h1
    · exact absurd h1 (by decide)
    · exact absurd h1 (by decide)
    · exact absurd h1 (by decide)

/-! ## The header parser -/

theorem parseFirstHistoryLine_plain (now : Time) (line : Str)
    (h : strings.HasPrefix line [':', ' '] = false) :
    parseFirstHistoryLine now line = (now, 0, line, false) := by
  simp [parseFirstHistoryLine, h]

theorem parseFirstHistoryLine_no_semicolon (now : Time) (rest : Str) (h : ';' ∉ rest) :
    parseFirstHistoryLine now (':' :: ' ' :: rest) = (now, 0, ':' :: ' ' :: rest, false) := by
  have hi : strings.Index (':' :: ' ' :: rest) ';' = -1 := by
    apply indexFrom_not_mem
    simp only [List.mem_cons, not_or]
    exact ⟨by decide, by decide, h⟩
  simp only [parseFirstHistoryLine, hi, ExtendedCommandPrefixLen]
  rw [if_neg (by simp [strings.HasPrefix]), if_pos (by decide)]

theorem ParseTimestamp_nil : (ParseTimestamp []).2.2 ≠ none := by decide

/-- What `parseFirstHistoryLine` does on a line `": " ++ hdr ++ ";" ++ c` whose
first semicolon is the one shown: the outcome of `ParseTimestamp hdr` decides. -/
theorem parseFirstHistoryLine_semicolon (now : Time) (hdr c : Str) (h : ';' ∉ hdr) :
    parseFirstHistoryLine now (':' :: ' ' :: (hdr ++ ';' :: c)) =
      match ParseTimestamp hdr with
      | (t, e, none) => (t, e, c, true)
      | (_, _, some _) => (now, 0, ':' :: ' ' :: (hdr ++ ';' :: c), false) := by
  have hi : strings.Index (':' :: ' ' :: (hdr ++ ';' :: c)) ';' = ((hdr.length + 2 : Nat) : Int) := by
    have := indexFrom_append ';' (':' :: ' ' :: hdr) c 0 (by
      simp only [List.mem_cons, not_or]
      exact ⟨by decide, by decide, h⟩)
    simp only [List.cons_append, List.length_cons, Nat.zero_add] at this
    exact this
  by_cases hnil : hdr = []
  · subst hnil
    have h2 : strings.Index (':' :: ' ' :: ';' :: c) ';' = 2 := by
      simp [strings.Index, strings.indexFrom]
    have hp : (ParseTimestamp []).2.2 ≠ none := ParseTimestamp_nil
    rcases hP : ParseTimestamp [] with ⟨t, e, o⟩
    rw [hP] at hp
    cases o with
    | none => exact absurd rfl hp
    | some err =>
      simp only [List.nil_append, parseFirstHistoryLine, h2, ExtendedCommandPrefixLen]
      rw [if_neg (by simp [strings.HasPrefix]), if_pos (by decide)]
  · have hlen : 0 < hdr.length := List.length_pos.mpr hnil
    have htake : ((':' :: ' ' :: (hdr ++ ';' :: c)).take (hdr.length + 2)).drop 2 = hdr := by
      simp
    have hdrop : (':' :: ' ' :: (hdr ++ ';' :: c)).drop (hdr.length + 2 + 1) = c := by
      simp
    have hgt : ¬ (((hdr.length + 2 : Nat) : Int) ≤ ((2 : Nat) : Int)) := by
      omega
    simp only [parseFirstHistoryLine, strings.HasPrefix, hi, ExtendedCommandPrefixLen]
    rw [if_neg (by simp), if_neg hgt]
    simp only [Int.toNat_ofNat, htake, hdrop]

theorem ParseTimestamp_fields (ts es : Str) (t e : Int)
    (ht : strconv.ParseInt ts 64 = (t, none)) (he : strconv.Atoi es = (e, none)) :
    ParseTimestamp (ts ++ ':' :: es) = (convertUnixToUTC t, e, none) := by
  have hts := (ParseInt_no_sep ts t ht).1
  have hes := (ParseInt_no_sep es e he).1
  have hsplit : strings.Split (ts ++ ':' :: es) ':' = [ts, es] := by
    rw [Split_append _ _ _ hts, Split_not_mem _ _ hes]
  simp [ParseTimestamp, hsplit, timestampFieldsCount, ht, he]

/-! ## One step of the line parser -/

theorem processHistoryLine_idle_final (now : Time) (line builder part : Str)
    (ts : Time) (el : Int) (ext : Bool)
    (hp : parseFirstHistoryLine now line = (ts, el, part, ext))
    (hs : strings.HasSuffix part ['\\'] = false) :
    processHistoryLine now line builder none =
      (builder ++ part, ⟨ts, cleanCommand (builder ++ part), el, true⟩) := by
  simp [processHistoryLine, hp, hs]

theorem processHistoryLine_idle_cont (now : Time) (line builder part : Str)
    (ts : Time) (el : Int) (ext : Bool)
    (hp : parseFirstHistoryLine now line = (ts, el, part, ext))
    (hs : strings.HasSuffix part ['\\'] = true) :
    processHistoryLine now line builder none =
      (builder ++ strings.TrimRight (strings.TrimSuffix part ['\\']) [' ', '\t'] ++ ['\n'],
        ⟨ts, [], el, false⟩) := by
  simp [processHistoryLine, hp, hs]

theorem processHistoryLine_busy_final (now : Time) (line builder : Str)
    (c : HistoryCommand) (hs : strings.HasSuffix line ['\\'] = false) :
    processHistoryLine now line builder (some c) =
      (builder ++ line,
        { c with Command := cleanCommand (builder ++ line), ParseFinished := true }) := by
  simp [processHistoryLine, hs]

theorem processHistoryLine_busy_cont (now : Time) (line builder : Str)
    (c : HistoryCommand) (hs : strings.HasSuffix line ['\\'] = true) :
    processHistoryLine now line builder (some c) =
      (builder ++ strings.TrimRight (strings.TrimSuffix line ['\\']) [' ', '\t'] ++ ['\n'],
        c) := by
  simp [processHistoryLine, hs]

/-! ## Decimal text is read back -/

theorem digitChar_toNat (d : Nat) (h : d < 10) : (Char.ofNat (48 + d)).toNat = 48 + d := by
  interval_cases d <;> rfl

theorem foldl_digits_ge (L : List Nat) (acc : Nat) :
    acc ≤ L.foldl (fun a d => a * 10 + d) acc := by
  induction L generalizing acc with
  | nil => exact Nat.le_refl _
  | cons d ds ih =>
    rw [List.foldl_cons]
    exact Nat.le_trans (by omega) (ih (acc * 10 + d))

/-- The digit loop reads a list of decimal digits as the number they spell, as
long as that number is within range. -/
theorem parseUintLoop_digitChars (maxVal : Nat) (hmax : maxVal < 2 ^ 64) (L : List Nat)
    (acc : Nat) (hL : ∀ d ∈ L, d < 10)
    (hval : L.foldl (fun a d => a * 10 + d) acc ≤ maxVal) :
    strconv.parseUintLoop maxVal (L.map (fun d => Char.ofNat (48 + d))) acc =
      (L.foldl (fun a d => a * 10 + d) acc, none) := by
  induction L generalizing acc with
  | nil => rfl
  | cons d ds ih =>
    have hd : d < 10 := hL d (by simp)
    have hge := foldl_digits_ge ds (acc * 10 + d)
    rw [List.foldl_cons] at hval
    have hc := digitChar_toNat d hd
    simp only [List.map_cons, List.foldl_cons, strconv.parseUintLoop, hc]
    rw [if_pos (by omega), if_neg (by omega)]
    have hsub : 48 + d - 48 = d := by omega
    rw [hsub, if_neg (by omega)]
    exact ih (acc * 10 + d) (fun x hx => hL x (by simp [hx])) hval

theorem foldl_reverse_digits (n : Nat) :
    (Nat.digits 10 n).reverse.foldl (fun a d => a * 10 + d) 0 = n := by
  rw [List.foldl_reverse]
  have h := Nat.ofDigits_digits 10 n
  rw [Nat.ofDigits_eq_foldr] at h
  have hf : (fun (x y : Nat) => y * 10 + x) = (fun (x y : Nat) => ((x : Nat) : Nat) + 10 * y) := by
    funext x y
    omega
  rw [hf]
  simpa using h

theorem ParseUint_FormatUint (n bitSize : Nat) (hb : bitSize ≤ 64) (hn : n < 2 ^ bitSize) :
    strconv.ParseUint (strconv.FormatUint n) bitSize = (n, none) := by
  have hpow : 2 ^ bitSize ≤ 2 ^ 64 := Nat.pow_le_pow_right (by decide) hb
  have hpos : 0 < 2 ^ bitSize := Nat.two_pow_pos bitSize
  by_cases h0 : n = 0
  · subst h0
    have : (0 : Nat) ≤ 2 ^ bitSize - 1 := Nat.zero_le _
    simp [strconv.FormatUint, strconv.ParseUint, strconv.parseUintLoop]
  · have hne : (Nat.digits 10 n).reverse.map (fun d => Char.ofNat (48 + d)) ≠ [] := by
      simp [Nat.digits_ne_nil_iff_ne_zero, h0]
    simp only [strconv.FormatUint, if_neg h0, strconv.ParseUint, if_neg hne]
    rw [parseUintLoop_digitChars (2 ^ bitSize - 1) (by omega) _ 0
      (fun d hd => Nat.digits_lt_base (by decide) (List.mem_reverse.mp hd))
      (by rw [foldl_reverse_digits]; omega)]
    rw [foldl_reverse_digits]

theorem FormatUint_head (n : Nat) :
    ∃ c cs, strconv.FormatUint n = c :: cs ∧ c ≠ '+' ∧ c ≠ '-' := by
  by_cases h0 : n = 0
  · exact ⟨'0', [], by simp [strconv.FormatUint, h0], by decide, by decide⟩
  · have hne : (Nat.digits 10 n).reverse ≠ [] := by
      simp [Nat.digits_ne_nil_iff_ne_zero, h0]
    obtain ⟨d, ds, hds⟩ := List.exists_cons_of_ne_nil hne
    have hd : d < 10 := by
      have : d ∈ (Nat.digits 10 n).reverse := by rw [hds]; simp
      exact Nat.digits_lt_base (by decide) (List.mem_reverse.mp this)
    refine ⟨Char.ofNat (48 + d), ds.map (fun d => Char.ofNat (48 + d)), ?_, ?_, ?_⟩
    · simp [strconv.FormatUint, h0, hds]
    · intro he
      have := congrArg Char.toNat he
      rw [digitChar_toNat d hd] at this
      have h43 : ('+' : Char).toNat = 43 := rfl
      omega
    · intro he
      have := congrArg Char.toNat he
      rw [digitChar_toNat d hd] at this
      have h45 : ('-' : Char).toNat = 45 := rfl
      omega

/-- Every 64-bit integer has a decimal text that `ParseInt` and `Atoi` read
back as that integer. -/
theorem ParseInt_FormatInt (i : Int) (hlo : -(2 ^ 63 : Int) ≤ i) (hhi : i < (2 ^ 63 : Int)) :
    strconv.ParseInt (strconv.FormatInt i) 64 = (i, none) ∧
    strconv.Atoi (strconv.FormatInt i) = (i, none) := by
  have key : strconv.ParseInt (strconv.FormatInt i) 64 = (i, none) := by
    obtain ⟨c, cs, hcs, hplus, hminus⟩ := FormatUint_head i.natAbs
    have hU := ParseUint_FormatUint i.natAbs 64 (Nat.le_refl _) (by omega)
    by_cases hneg : i < 0
    · simp only [strconv.FormatInt, if_pos hneg, strconv.ParseInt]
      simp only [or_true, if_true, hU]
      have h1 : ¬ ((2 : Nat) ^ (64 - 1) < i.natAbs) := by omega
      have h2 : (-(i.natAbs : Int)) = i := by omega
      simp only [gt_iff_lt, h1, decide_False, Bool.and_false, Bool.false_eq_true, if_false,
        decide_True, Bool.not_true, Bool.false_and, h2, Bool.true_and]
      rfl
    · simp only [strconv.FormatInt, if_neg hneg, hcs, strconv.ParseInt]
      simp only [hplus, hminus, or_self, if_false, ← hcs, hU]
      have h1 : ¬ ((2 : Nat) ^ (64 - 1) ≤ i.natAbs) := by omega
      have h2 : ((i.natAbs : Nat) : Int) = i := by omega
      simp only [ge_iff_le, h1, decide_False, Bool.and_false, Bool.false_eq_true, if_false,
        decide_True, Bool.not_false, Bool.true_and, Bool.false_and, h2]
  exact ⟨key, key⟩

/-! ## Claims -/

/-- A line `": " ++ ts ++ ":" ++ es ++ ";" ++ c` whose fields `ParseInt` and
`Atoi` read as `t` and `e`, and whose command part does not end with a
backslash: the header parser, the idle line parser and a pass over this single
line. -/
theorem extended_line_of_fields (now : Time) (ts es c : Str) (t e : Int)
    (ht : strconv.ParseInt ts 64 = (t, none)) (he : strconv.Atoi es = (e, none))
    (hc : strings.HasSuffix c ['\\'] = false) :
    parseFirstHistoryLine now ([':', ' '] ++ ts ++ [':'] ++ es ++ [';'] ++ c)
        = (convertUnixToUTC t, e, c, true) ∧
    processHistoryLine now ([':', ' '] ++ ts ++ [':'] ++ es ++ [';'] ++ c) [] none
        = (c, ⟨convertUnixToUTC t, cleanCommand c, e, true⟩) ∧
    ∀ (σ ε : Type) (h : HistoryIngestor) (clock : Nat → Time) (fromTimestamp : Time)
      (callback : Callback σ ε) (store : σ),
      (ParseBashHistory h clock [[':', ' '] ++ ts ++ [':'] ++ es ++ [';'] ++ c]
          fromTimestamp callback store).1.handled
        = [⟨convertUnixToUTC t, cleanCommand c, e, true⟩] := by
  have hsemi : ';' ∉ ts ++ ':' :: es := by
    simp only [List.mem_append, List.mem_cons, not_or]
    exact ⟨(ParseInt_no_sep ts t ht).2, by decide, (ParseInt_no_sep es e he).2⟩
  have hline : [':', ' '] ++ ts ++ [':'] ++ es ++ [';'] ++ c
      = ':' :: ' ' :: ((ts ++ ':' :: es) ++ ';' :: c) := by simp
  have hparse : ∀ now, parseFirstHistoryLine now
      ([':', ' '] ++ ts ++ [':'] ++ es ++ [';'] ++ c) = (convertUnixToUTC t, e, c, true) := by
    intro now
    rw [hline, parseFirstHistoryLine_semicolon now _ c hsemi, ParseTimestamp_fields ts es t e ht he]
  have hproc : ∀ now, processHistoryLine now
      ([':', ' '] ++ ts ++ [':'] ++ es ++ [';'] ++ c) [] none
        = (c, ⟨convertUnixToUTC t, cleanCommand c, e, true⟩) := by
    intro now
    rw [processHistoryLine_idle_final now _ [] c _ e true (hparse now) hc]
    rfl
  refine ⟨hparse now, hproc now, ?_⟩
  intro σ ε h clock fromTimestamp callback store
  have hne : ([':', ' '] ++ ts ++ [':'] ++ es ++ [';'] ++ c) ≠ [] := by simp
  simp only [ParseBashHistory, scanLines, ScanState.start, hproc]
  rw [if_neg (fun hh => hne hh.1)]
  rcases handleCommand fromTimestamp ⟨convertUnixToUTC t, cleanCommand c, e, true⟩ callback store
    with ⟨⟨status, err⟩, store1⟩
  cases err <;> simp [finalizeCommand]

/-- For a sum within the `int64` range the wrap does nothing, so `time.Unix`
of `t` is `t` seconds after the Unix epoch, which lies 62135596800 seconds after
the zero time. -/
theorem Time.Unix_seconds (t : Int) (hlo : -(2 ^ 63 : Int) ≤ t + 62135596800)
    (hhi : t + 62135596800 < (2 ^ 63 : Int)) :
    Time.Unix t = ⟨t + 62135596800, 0⟩ := by
  have hw : Time.wrapInt64 (t + 62135596800) = t + 62135596800 := by
    unfold Time.wrapInt64
    omega
  simp only [Time.Unix, Time.unixToInternal, hw]

/-- C1: for every command text `c` that does not end with a backslash, (1) for
every 64-bit integer `t` and every `int` `e`, the line `": t:e;c"` written with
their decimal texts is parsed by `parseFirstHistoryLine` into
`(time.Unix(t, 0) in UTC, e, c, true)`, an idle parser fed this line completes
the command with that timestamp, that elapsed time and the text
`cleanCommand c`, and a pass over this single line hands exactly that one
command to the classifier; the timestamp is the instant `t` seconds after
1970-01-01 00:00:00 UTC, that is `t + 62135596800` seconds after the zero time
(wrapped to 64 bits, which changes nothing unless `t` is within 62135596800 of
the largest `int64`), with no nanoseconds; (2) the same holds for any header
fields `ts`, `es` that `ParseInt` and `Atoi` read as `t` and `e` (a leading
`+`, leading zeros). -/
theorem extended_line_completes_one_command (now : Time) (c : Str)
    (hc : strings.HasSuffix c ['\\'] = false) :
    (∀ t e : Int, -(2 ^ 63 : Int) ≤ t → t < (2 ^ 63 : Int) →
        -(2 ^ 63 : Int) ≤ e → e < (2 ^ 63 : Int) →
      parseFirstHistoryLine now
          ([':', ' '] ++ strconv.FormatInt t ++ [':'] ++ strconv.FormatInt e ++ [';'] ++ c)
        = (⟨Time.wrapInt64 (t + 62135596800), 0⟩, e, c, true) ∧
      processHistoryLine now
          ([':', ' '] ++ strconv.FormatInt t ++ [':'] ++ strconv.FormatInt e ++ [';'] ++ c)
          [] none
        = (c, ⟨⟨Time.wrapInt64 (t + 62135596800), 0⟩, cleanCommand c, e, true⟩) ∧
      (∀ (σ ε : Type) (h : HistoryIngestor) (clock : Nat → Time) (fromTimestamp : Time)
        (callback : Callback σ ε) (store : σ),
        (ParseBashHistory h clock
            [[':', ' '] ++ strconv.FormatInt t ++ [':'] ++ strconv.FormatInt e ++ [';'] ++ c]
            fromTimestamp callback store).1.handled
          = [⟨⟨Time.wrapInt64 (t + 62135596800), 0⟩, cleanCommand c, e, true⟩]) ∧
      (t + 62135596800 < (2 ^ 63 : Int) →
        Time.wrapInt64 (t + 62135596800) = t + 62135596800 ∧
        parseFirstHistoryLine now
            ([':', ' '] ++ strconv.FormatInt t ++ [':'] ++ strconv.FormatInt e ++ [';'] ++ c)
          = (⟨t + 62135596800, 0⟩, e, c, true))) ∧
    (∀ (ts es : Str) (t e : Int), strconv.ParseInt ts 64 = (t, none) →
        strconv.Atoi es = (e, none) →
      parseFirstHistoryLine now ([':', ' '] ++ ts ++ [':'] ++ es ++ [';'] ++ c)
        = (⟨Time.wrapInt64 (t + 62135596800), 0⟩, e, c, true) ∧
      processHistoryLine now ([':', ' '] ++ ts ++ [':'] ++ es ++ [';'] ++ c) [] none
        = (c, ⟨⟨Time.wrapInt64 (t + 62135596800), 0⟩, cleanCommand c, e, true⟩) ∧
      ∀ (σ ε : Type) (h : HistoryIngestor) (clock : Nat → Time) (fromTimestamp : Time)
        (callback : Callback σ ε) (store : σ),
        (ParseBashHistory h clock [[':', ' '] ++ ts ++ [':'] ++ es ++ [';'] ++ c]
            fromTimestamp callback store).1.handled
          = [⟨⟨Time.wrapInt64 (t + 62135596800), 0⟩, cleanCommand c, e, true⟩]) := by
  have hconv : ∀ t : Int, convertUnixToUTC t = ⟨Time.wrapInt64 (t + 62135596800), 0⟩ :=
    fun _ => rfl
  constructor
  · intro t e ht1 ht2 he1 he2
    have key := extended_line_of_fields now _ _ c t e (ParseInt_FormatInt t ht1 ht2).1
      (ParseInt_FormatInt e he1 he2).2 hc
    rw [hconv] at key
    refine ⟨key.1, key.2.1, key.2.2, ?_⟩
    intro hhi
    have hw : Time.wrapInt64 (t + 62135596800) = t + 62135596800 := by
      unfold Time.wrapInt64
      omega
    refine ⟨hw, ?_⟩
    rw [key.1, hw]
  · intro ts es t e ht he
    have key := extended_line_of_fields now ts es c t e ht he hc
    rw [hconv] at key
    exact key

theorem extended_line_witness :
    strings.HasSuffix "echo hi".toList ['\\'] = false ∧
    strconv.ParseInt "1700000000".toList 64 = (1700000000, none) ∧
    strconv.Atoi "5".toList = (5, none) ∧
    parseFirstHistoryLine Time.zero ": 1700000000:5;echo hi".toList
      = (⟨63835596800, 0⟩, 5, "echo hi".toList, true) ∧
    processHistoryLine Time.zero ": 1700000000:5;echo hi".toList [] none
      = ("echo hi".toList, ⟨⟨63835596800, 0⟩, "echo hi".toList, 5, true⟩) :=
  ⟨by decide, by decide, by decide,
    ((extended_line_completes_one_command Time.zero "echo hi".toList (by decide)).2
      "1700000000".toList "5".toList 1700000000 5 (by decide) (by decide)).1,
    ((extended_line_completes_one_command Time.zero "echo hi".toList (by decide)).2
      "1700000000".toList "5".toList 1700000000 5 (by decide) (by decide)).2.1⟩

theorem first_separator (sep : Char) (rest : Str) (h : sep ∈ rest) :
    ∃ c, rest = rest.takeWhile (fun x => x != sep) ++ sep :: c ∧
      sep ∉ rest.takeWhile (fun x => x != sep) := by
  induction rest with
  | nil => simp at h
  | cons x xs ih =>
    by_cases hx : x = sep
    · subst hx
      exact ⟨xs, by simp [List.takeWhile_cons], by simp [List.takeWhile_cons]⟩
    · have hxs : sep ∈ xs := by
        rcases List.mem_cons.mp h with e | e
        · exact absurd e.symm hx
        · exact e
      obtain ⟨c, hc1, hc2⟩ := ih hxs
      have hb : (x != sep) = true := by simp [hx]
      refine ⟨c, ?_, ?_⟩
      · rw [List.takeWhile_cons, if_pos hb, List.cons_append, ← hc1]
      · rw [List.takeWhile_cons, if_pos hb]
        simp only [List.mem_cons, not_or]
        exact ⟨fun e => hx e.symm, hc2⟩

theorem takeWhile_append_sep (sep : Char) (a c : Str) (h : sep ∉ a) :
    (a ++ sep :: c).takeWhile (fun x => x != sep) = a := by
  induction a with
  | nil => simp [List.takeWhile_cons]
  | cons x xs ih =>
    have hx : x ≠ sep := fun e => h (by simp [e])
    have hxs : sep ∉ xs := fun e => h (by simp [e])
    have hb : (x != sep) = true := by simp [hx]
    rw [List.cons_append, List.takeWhile_cons, if_pos hb, ih hxs]

theorem HasPrefix_header (line : Str) (h : strings.HasPrefix line [':', ' '] = true) :
    ∃ rest, line = ':' :: ' ' :: rest := by
  match line, h with
  | [], h => simp [strings.HasPrefix] at h
  | [a], h => simp [strings.HasPrefix, List.isPrefixOf] at h
  | a :: b :: rest, h =>
    simp only [strings.HasPrefix, List.isPrefixOf, Bool.and_eq_true, beq_iff_eq] at h
    exact ⟨rest, by rw [← h.1, ← h.2.1]⟩

theorem ParseTimestamp_ok (hdr : Str) (t : Time) (e : Int)
    (h : ParseTimestamp hdr = (t, e, none)) :
    ∃ f0 f1, strings.Split hdr ':' = [f0, f1] ∧
      (strconv.ParseInt f0 64).2 = none ∧ (strconv.Atoi f1).2 = none := by
  simp only [ParseTimestamp, timestampFieldsCount] at h
  split at h
  · simp at h
  · rename_i hlen
    match hS : strings.Split hdr ':', hlen with
    | [f0, f1], _ =>
      refine ⟨f0, f1, rfl, ?_, ?_⟩
      · rw [hS] at h
        simp only [List.getD_cons_zero] at h
        split at h
        · simp at h
        · rename_i h1; rw [h1]
      · rw [hS] at h
        simp only [List.getD_cons_zero, List.getD_cons_succ] at h
        split at h
        · simp at h
        · split at h
          · simp at h
          · rename_i h1; rw [h1]
    | [], hl => simp at hl
    | [_], hl => simp at hl
    | _ :: _ :: _ :: _, hl => simp at hl

/-- C2: a line that begins with `": "` and whose header is malformed falls back
to plain format: `parseFirstHistoryLine` returns the current time, elapsed 0,
the entire original line as command part, and `isExtendedFormat = false`. -/
theorem malformed_header_falls_back (now : Time) (line : Str)
    (hpre : strings.HasPrefix line [':', ' '] = true)
    (hmal : malformedHeader line = true) :
    parseFirstHistoryLine now line = (now, 0, line, false) := by
  obtain ⟨rest, rfl⟩ := HasPrefix_header line hpre
  by_cases hs : ';' ∈ rest
  · obtain ⟨c, hc1, hc2⟩ := first_separator ';' rest hs
    generalize hh : rest.takeWhile (fun x => x != ';') = hdr at hc1 hc2
    subst hc1
    rw [parseFirstHistoryLine_semicolon now hdr c hc2]
    rcases hP : ParseTimestamp hdr with ⟨t, e, o⟩
    cases o with
    | some err => rfl
    | none =>
      exfalso
      obtain ⟨f0, f1, hS, h0, h1⟩ := ParseTimestamp_ok hdr t e hP
      have hne : hdr ≠ [] := by
        intro hn
        subst hn
        simp [strings.Split] at hS
      obtain ⟨x, xs, rfl⟩ := List.exists_cons_of_ne_nil hne
      have hht : headerText (':' :: ' ' :: (x :: xs ++ ';' :: c)) = x :: xs := by
        simp only [headerText, List.drop_succ_cons, List.drop_zero]
        exact hh
      simp only [malformedHeader, hht, hS, h0, h1] at hmal
      simp at hmal
  · exact parseFirstHistoryLine_no_semicolon now rest hs

theorem malformed_header_witness :
    strings.HasPrefix ": abc:5;echo hi".toList [':', ' '] = true ∧
    malformedHeader ": abc:5;echo hi".toList = true ∧
    parseFirstHistoryLine Time.zero ": abc:5;echo hi".toList
      = (Time.zero, 0, ": abc:5;echo hi".toList, false) :=
  ⟨by decide, by decide,
    malformed_header_falls_back Time.zero ": abc:5;echo hi".toList (by decide) (by decide)⟩

/-! ## The scan loop -/

theorem ParseBashHistory_eq_runFrom {σ ε : Type} (h : HistoryIngestor) (clock : Nat → Time)
    (lines : List Str) (fromTimestamp : Time) (callback : Callback σ ε) (store : σ) :
    ParseBashHistory h clock lines fromTimestamp callback store =
      runFrom clock fromTimestamp callback lines (ScanState.start h store) := rfl

theorem handleCommand_unfinished {σ ε : Type} (fromTimestamp : Time) (cmd : HistoryCommand)
    (callback : Callback σ ε) (s : σ) (h : cmd.ParseFinished = false) :
    handleCommand fromTimestamp cmd callback s = ((CommandImportedStatusInProgress, none), s) := by
  simp [handleCommand, h]

theorem updateStats_InProgress (h : HistoryIngestor) :
    updateStats h CommandImportedStatusInProgress = h := by
  simp [updateStats, CommandImportedStatusInProgress, CommandImportedStatusNew,
    CommandImportedStatusError, CommandImportedStatusFilteredOut,
    CommandImportedStatusAlreadyExists, CommandImportedStatusSkipped]

theorem scanLines_blank {σ ε : Type} (clock : Nat → Time) (fromTimestamp : Time)
    (callback : Callback σ ε) (rest : List Str) (st : ScanState σ)
    (h : st.currentCommand = none) :
    scanLines clock fromTimestamp callback ([] :: rest) st =
      scanLines clock fromTimestamp callback rest { st with lineNumber := st.lineNumber + 1 } := by
  rw [scanLines, if_pos ⟨rfl, h⟩]

/-- A loop iteration whose line leaves the command unfinished: nothing is
classified, the loop goes on with the grown buffer. -/
theorem scanLines_unfinished {σ ε : Type} (clock : Nat → Time) (fromTimestamp : Time)
    (callback : Callback σ ε) (line : Str) (rest : List Str) (st : ScanState σ)
    (builder : Str) (cmd : HistoryCommand)
    (hskip : ¬ (line = [] ∧ st.currentCommand = none))
    (hp : processHistoryLine (clock (st.lineNumber + 1)) line st.commandBuilder
      st.currentCommand = (builder, cmd))
    (hu : cmd.ParseFinished = false) :
    scanLines clock fromTimestamp callback (line :: rest) st =
      scanLines clock fromTimestamp callback rest
        { h := st.h
          commandBuilder := builder
          currentCommand := some cmd
          lineNumber := st.lineNumber + 1
          store := st.store
          handled := st.handled ++ [cmd] } := by
  rw [scanLines, if_neg hskip]
  simp only [hp, handleCommand_unfinished fromTimestamp cmd callback st.store hu,
    updateStats_InProgress, hu]
  simp

/-- A loop iteration whose line completes the command, when it is the last
line: the command is logged once and nothing is left for the end-of-input
step. -/
theorem runFrom_last_finished {σ ε : Type} (clock : Nat → Time) (fromTimestamp : Time)
    (callback : Callback σ ε) (line : Str) (st : ScanState σ)
    (builder : Str) (cmd : HistoryCommand)
    (hskip : ¬ (line = [] ∧ st.currentCommand = none))
    (hp : processHistoryLine (clock (st.lineNumber + 1)) line st.commandBuilder
      st.currentCommand = (builder, cmd))
    (hf : cmd.ParseFinished = true) :
    (runFrom clock fromTimestamp callback [line] st).1.handled = st.handled ++ [cmd] := by
  simp only [runFrom, scanLines]
  rw [if_neg hskip]
  simp only [hp]
  rcases handleCommand fromTimestamp cmd callback st.store with ⟨⟨status, err⟩, store1⟩
  cases err <;> simp [hf, finalizeCommand]

/-- The two outcomes of `parseFirstHistoryLine`: the plain-format defaults, or
the fields of a header `": " ++ hdr ++ ";"` that `ParseTimestamp` accepts. -/
theorem parseFirstHistoryLine_cases (now : Time) (line : Str) :
    parseFirstHistoryLine now line = (now, 0, line, false) ∨
    ∃ hdr c t e, line = ':' :: ' ' :: (hdr ++ ';' :: c) ∧ ';' ∉ hdr ∧
      ParseTimestamp hdr = (t, e, none) ∧
      parseFirstHistoryLine now line = (t, e, c, true) := by
  by_cases hpre : strings.HasPrefix line [':', ' '] = true
  · obtain ⟨rest, rfl⟩ := HasPrefix_header line hpre
    by_cases hs : ';' ∈ rest
    · obtain ⟨c, hc1, hc2⟩ := first_separator ';' rest hs
      generalize rest.takeWhile (fun x => x != ';') = hdr at hc1 hc2
      subst hc1
      rcases hP : ParseTimestamp hdr with ⟨t, e, o⟩
      cases o with
      | some err =>
        left
        rw [parseFirstHistoryLine_semicolon now hdr c hc2, hP]
      | none =>
        right
        refine ⟨hdr, c, t, e, rfl, hc2, hP, ?_⟩
        rw [parseFirstHistoryLine_semicolon now hdr c hc2, hP]
    · exact Or.inl (parseFirstHistoryLine_no_semicolon now rest hs)
  · exact Or.inl (parseFirstHistoryLine_plain now line (by simpa using hpre))

theorem HasSuffix_single (s : Str) (x : Char) :
    strings.HasSuffix s [x] = decide (s.getLast? = some x) := by
  rcases List.eq_nil_or_concat s with rfl | ⟨t, y, rfl⟩
  · simp [strings.HasSuffix, List.isPrefixOf]
  · have hr : (t ++ [y]).reverse = y :: t.reverse := by simp
    have hl : (t ++ [y]).getLast? = some y := by simp
    rw [List.concat_eq_append, strings.HasSuffix, hr, hl]
    by_cases h : x = y
    · simp [h, List.isPrefixOf]
    · have h2 : ¬ y = x := fun e => h (Eq.symm e)
      simp [h, h2, List.isPrefixOf]

theorem HasSuffix_append (a b : Str) (x : Char) (hb : b ≠ []) :
    strings.HasSuffix (a ++ b) [x] = strings.HasSuffix b [x] := by
  rw [HasSuffix_single, HasSuffix_single, List.getLast?_append_of_ne_nil a hb]

/-- The command part that `parseFirstHistoryLine` returns ends with a backslash
exactly when the line does. -/
theorem commandPart_HasSuffix (now : Time) (line : Str) :
    strings.HasSuffix (parseFirstHistoryLine now line).2.2.1 ['\\'] =
      strings.HasSuffix line ['\\'] := by
  rcases parseFirstHistoryLine_cases now line with h | ⟨hdr, c, t, e, rfl, _, _, h⟩
  · rw [h]
  · rw [h]
    show strings.HasSuffix c ['\\'] = strings.HasSuffix ([':', ' '] ++ hdr ++ ';' :: c) ['\\']
    by_cases hc : c = []
    · subst hc
      rw [HasSuffix_append _ _ _ (by simp)]
      decide
    · have : [':', ' '] ++ hdr ++ ';' :: c = ([':', ' '] ++ hdr ++ [';']) ++ c := by simp
      rw [this, HasSuffix_append _ _ _ hc]

theorem Join_cons (a : Str) (l : List Str) (sep : Str) (h : l ≠ []) :
    strings.Join (a :: l) sep = a ++ sep ++ strings.Join l sep := by
  cases l with
  | nil => exact absurd rfl h
  | cons b rest => rfl

/-- From a state with an unfinished command, continuation lines followed by a
final line log the unfinished command once per continuation line and then the
completed command, whose text is the cleaned buffer. -/
theorem runFrom_continuation {σ ε : Type} (clock : Nat → Time) (fromTimestamp : Time)
    (callback : Callback σ ε) (mid : List Str) (last : Str) (st : ScanState σ)
    (c : HistoryCommand) (hc : st.currentCommand = some c) (hu : c.ParseFinished = false)
    (hmid : ∀ l ∈ mid, strings.HasSuffix l ['\\'] = true)
    (hlast : strings.HasSuffix last ['\\'] = false) :
    (runFrom clock fromTimestamp callback (mid ++ [last]) st).1.handled =
      st.handled ++ List.replicate mid.length c ++
        [{ c with
           Command := cleanCommand (st.commandBuilder ++
             strings.Join (mid.map continuationFragment ++ [last]) ['\n'])
           ParseFinished := true }] := by
  induction mid generalizing st with
  | nil =>
    have hskip : ¬ (last = [] ∧ st.currentCommand = none) := by simp [hc]
    have hp := processHistoryLine_busy_final (clock (st.lineNumber + 1)) last
      st.commandBuilder c hlast
    rw [← hc] at hp
    simp only [List.nil_append, List.map_nil, List.length_nil, List.replicate_zero,
      List.append_nil]
    rw [runFrom_last_finished clock fromTimestamp callback last st _ _ hskip hp rfl]
    rfl
  | cons m ms ih =>
    have hm : strings.HasSuffix m ['\\'] = true := hmid m (by simp)
    have hskip : ¬ (m = [] ∧ st.currentCommand = none) := by simp [hc]
    have hp := processHistoryLine_busy_cont (clock (st.lineNumber + 1)) m
      st.commandBuilder c hm
    rw [← hc] at hp
    simp only [List.cons_append, runFrom]
    rw [scanLines_unfinished clock fromTimestamp callback m (ms ++ [last]) st _ _ hskip hp hu]
    have := ih { h := st.h
                 commandBuilder := st.commandBuilder ++
                   strings.TrimRight (strings.TrimSuffix m ['\\']) [' ', '\t'] ++ ['\n']
                 currentCommand := some c
                 lineNumber := st.lineNumber + 1
                 store := st.store
                 handled := st.handled ++ [c] } rfl
      (fun l hl => hmid l (by simp [hl]))
    simp only [runFrom] at this
    rw [this]
    simp only [List.map_cons, List.length_cons, List.replicate_succ, List.cons_append,
      List.append_assoc, List.singleton_append]
    rw [Join_cons _ _ _ (by simp)]
    simp [continuationFragment]

/-- C3: for lines `first :: mid ++ [last]` fed to an idle parser, where `first`
and every line of `mid` end with a backslash and `last` does not, the pass
hands `handleCommand` an unfinished command on each line but the last and one
completed command on the last line. Its text is `cleanCommand` of the
newline-join of the fragments (the command part of the first line and every
line of `mid`, each without its trailing backslash and trailing spaces and
tabs, then `last` verbatim); its timestamp and elapsed time are those that
`parseFirstHistoryLine` reads from the first line. -/
theorem continuation_lines_one_command {σ ε : Type} (h : HistoryIngestor)
    (clock : Nat → Time) (fromTimestamp : Time) (callback : Callback σ ε) (store : σ)
    (first : Str) (mid : List Str) (last : Str)
    (hfirst : strings.HasSuffix first ['\\'] = true)
    (hmid : ∀ l ∈ mid, strings.HasSuffix l ['\\'] = true)
    (hlast : strings.HasSuffix last ['\\'] = false) :
    (ParseBashHistory h clock (first :: (mid ++ [last])) fromTimestamp callback store).1.handled =
      List.replicate (mid.length + 1)
        ⟨(parseFirstHistoryLine (clock 1) first).1, [],
          (parseFirstHistoryLine (clock 1) first).2.1, false⟩ ++
      [⟨(parseFirstHistoryLine (clock 1) first).1,
        cleanCommand (strings.Join
          (continuationFragment (parseFirstHistoryLine (clock 1) first).2.2.1 ::
            (mid.map continuationFragment ++ [last])) ['\n']),
        (parseFirstHistoryLine (clock 1) first).2.1, true⟩] := by
  have hsuf := commandPart_HasSuffix (clock 1) first
  rw [hfirst] at hsuf
  rcases hP : parseFirstHistoryLine (clock 1) first with ⟨ts, el, part, ext⟩
  rw [hP] at hsuf
  have hne : first ≠ [] := by
    intro hn
    subst hn
    simp [strings.HasSuffix, List.isPrefixOf] at hfirst
  have hp := processHistoryLine_idle_cont (clock 1) first [] part ts el ext hP hsuf
  rw [ParseBashHistory_eq_runFrom, runFrom]
  rw [scanLines_unfinished clock fromTimestamp callback first (mid ++ [last])
    (ScanState.start h store) _ _ (fun hh => hne hh.1) hp rfl]
  have := runFrom_continuation clock fromTimestamp callback mid last
    { h := h
      commandBuilder := [] ++
        strings.TrimRight (strings.TrimSuffix part ['\\']) [' ', '\t'] ++ ['\n']
      currentCommand := some ⟨ts, [], el, false⟩
      lineNumber := 0 + 1
      store := store
      handled := [] ++ [⟨ts, [], el, false⟩] } ⟨ts, [], el, false⟩ rfl rfl hmid hlast
  simp only [runFrom] at this
  simp only [ScanState.start]
  rw [this, Join_cons _ _ _ (by simp)]
  simp [continuationFragment, List.replicate_succ]

theorem continuation_lines_witness :
    strings.HasSuffix "echo a\\".toList ['\\'] = true ∧
    strings.HasSuffix "echo b".toList ['\\'] = false ∧
    (ParseBashHistory NewHistoryIngestor (fun _ => Time.Unix 1700000000)
        ["echo a\\".toList, "echo b".toList] Time.zero
        (fun (_ : HistoryCommand) (s : Unit) =>
          (((CommandImportedStatusNew, none) : CommandImportedStatus × Option Unit), s))
        ()).1.handled =
      [⟨Time.Unix 1700000000, [], 0, false⟩,
       ⟨Time.Unix 1700000000, "echo a\necho b".toList, 0, true⟩] :=
  ⟨by decide, by decide,
    continuation_lines_one_command NewHistoryIngestor (fun _ => Time.Unix 1700000000)
      Time.zero _ () "echo a\\".toList [] "echo b".toList (by decide)
      (fun l hl => absurd hl (List.not_mem_nil l)) (by decide)⟩

/-- A loop iteration whose line completes the command: the command is
classified; an error ends the loop, otherwise the loop goes on idle. -/
theorem scanLines_finished {σ ε : Type} (clock : Nat → Time) (fromTimestamp : Time)
    (callback : Callback σ ε) (line : Str) (rest : List Str) (st : ScanState σ)
    (builder : Str) (cmd : HistoryCommand)
    (hskip : ¬ (line = [] ∧ st.currentCommand = none))
    (hp : processHistoryLine (clock (st.lineNumber + 1)) line st.commandBuilder
      st.currentCommand = (builder, cmd))
    (hf : cmd.ParseFinished = true) :
    scanLines clock fromTimestamp callback (line :: rest) st =
      match handleCommand fromTimestamp cmd callback st.store with
      | ((importStatus, some err), store) =>
        ({ h := updateStats st.h importStatus
           commandBuilder := builder
           currentCommand := some cmd
           lineNumber := st.lineNumber + 1
           store := store
           handled := st.handled ++ [cmd] }, some err)
      | ((importStatus, none), store) =>
        scanLines clock fromTimestamp callback rest
          { h := updateStats st.h importStatus
            commandBuilder := []
            currentCommand := none
            lineNumber := st.lineNumber + 1
            store := store
            handled := st.handled ++ [cmd] } := by
  rw [scanLines, if_neg hskip]
  simp only [hp]
  rcases handleCommand fromTimestamp cmd callback st.store with ⟨⟨status, err⟩, store1⟩
  cases err <;> simp [hf]

theorem runFrom_nil_idle {σ ε : Type} (clock : Nat → Time) (fromTimestamp : Time)
    (callback : Callback σ ε) (st : ScanState σ) (h : st.currentCommand = none) :
    runFrom clock fromTimestamp callback [] st = (st, none) := by
  simp [runFrom, scanLines, finalizeCommand, h]

/-- From an idle state, plain single-line commands are logged one per line, in
order, each stamped with the clock reading of its line, as long as the pass is
not ended by an error. -/
theorem runFrom_plain_lines {σ ε : Type} (clock : Nat → Time) (fromTimestamp : Time)
    (callback : Callback σ ε) (lines : List Str) (st : ScanState σ)
    (hidle : st.currentCommand = none) (hb : st.commandBuilder = [])
    (hne : ∀ l ∈ lines, l ≠ [])
    (hplain : ∀ l ∈ lines, strings.HasPrefix l [':', ' '] = false)
    (hnc : ∀ l ∈ lines, strings.HasSuffix l ['\\'] = false)
    (hok : (runFrom clock fromTimestamp callback lines st).2 = none) :
    (runFrom clock fromTimestamp callback lines st).1.handled =
      st.handled ++ (lines.enumFrom (st.lineNumber + 1)).map
        (fun p => ⟨clock p.1, cleanCommand p.2, 0, true⟩) := by
  induction lines generalizing st with
  | nil => simp [runFrom_nil_idle clock fromTimestamp callback st hidle]
  | cons l ls ih =>
    rcases st with ⟨h0, b, cc, ln, store0, hd⟩
    simp only at hidle hb
    subst hidle hb
    have hl1 : l ≠ [] := hne l (by simp)
    have hl2 := hplain l (by simp)
    have hl3 := hnc l (by simp)
    have hparse := parseFirstHistoryLine_plain (clock (ln + 1)) l hl2
    have hp := processHistoryLine_idle_final (clock (ln + 1)) l [] l
      (clock (ln + 1)) 0 false hparse hl3
    have hstep := scanLines_finished clock fromTimestamp callback l ls
      ⟨h0, [], none, ln, store0, hd⟩ _ _ (fun hh => hl1 hh.1) hp rfl
    simp only [List.nil_append] at hstep
    simp only [runFrom] at hok ⊢
    rw [hstep] at hok ⊢
    rcases hH : handleCommand fromTimestamp
      ⟨clock (ln + 1), cleanCommand l, 0, true⟩ callback store0
      with ⟨⟨status, err⟩, store1⟩
    rw [hH] at hok
    cases err with
    | some e => simp at hok
    | none =>
      simp only at hok ⊢
      have := ih { h := updateStats h0 status
                   commandBuilder := []
                   currentCommand := none
                   lineNumber := ln + 1
                   store := store1
                   handled := hd ++ [⟨clock (ln + 1), cleanCommand l, 0, true⟩] } rfl rfl
        (fun x hx => hne x (by simp [hx])) (fun x hx => hplain x (by simp [hx]))
        (fun x hx => hnc x (by simp [hx])) (by simpa [runFrom] using hok)
      simp only [runFrom] at this
      rw [this]
      simp [List.enumFrom_cons]

/-- C4: for non-empty plain-format lines (none starting with `": "`, none
ending with a backslash), the idle parser completes each line into one command
with elapsed 0, the clock reading as timestamp and text `cleanCommand line`; and
a pass that is not ended by an error of the decision function hands
`handleCommand` exactly these commands, one per line, in source order, each
stamped with the clock reading taken at its line. -/
theorem plain_lines_one_command_per_line (lines : List Str)
    (hne : ∀ l ∈ lines, l ≠ [])
    (hplain : ∀ l ∈ lines, strings.HasPrefix l [':', ' '] = false)
    (hnc : ∀ l ∈ lines, strings.HasSuffix l ['\\'] = false) :
    (∀ l ∈ lines, ∀ now : Time,
      processHistoryLine now l [] none = (l, ⟨now, cleanCommand l, 0, true⟩)) ∧
    ∀ (σ ε : Type) (h : HistoryIngestor) (clock : Nat → Time) (fromTimestamp : Time)
      (callback : Callback σ ε) (store : σ),
      (ParseBashHistory h clock lines fromTimestamp callback store).2 = none →
      (ParseBashHistory h clock lines fromTimestamp callback store).1.handled =
        (lines.enumFrom 1).map (fun p => ⟨clock p.1, cleanCommand p.2, 0, true⟩) := by
  constructor
  · intro l hl now
    have hp := processHistoryLine_idle_final now l [] l now 0 false
      (parseFirstHistoryLine_plain now l (hplain l hl)) (hnc l hl)
    simpa using hp
  · intro σ ε h clock fromTimestamp callback store hok
    rw [ParseBashHistory_eq_runFrom] at hok ⊢
    rw [runFrom_plain_lines clock fromTimestamp callback lines (ScanState.start h store)
      rfl rfl hne hplain hnc hok]
    simp [ScanState.start]

theorem plain_lines_witness :
    (ParseBashHistory NewHistoryIngestor (fun n => Time.Unix (1700000000 + n))
        ["ls -l".toList, " pwd ".toList] Time.zero
        (fun (_ : HistoryCommand) (s : Unit) =>
          (((CommandImportedStatusNew, none) : CommandImportedStatus × Option Unit), s))
        ()).1.handled =
      [⟨Time.Unix 1700000001, "ls -l".toList, 0, true⟩,
       ⟨Time.Unix 1700000002, "pwd".toList, 0, true⟩] :=
  (plain_lines_one_command_per_line ["ls -l".toList, " pwd ".toList] (by decide) (by decide)
    (by decide)).2 Unit Unit NewHistoryIngestor (fun n => Time.Unix (1700000000 + n))
    Time.zero _ () (by decide)

/-- C5: at the failing input, the single line `echo a\`, the end-of-input step
hands the classifier the raw buffer `"echo a\n"` with `ParseFinished = true`,
not `cleanCommand` of it (`"echo a"`), which is what the same command gets when
an empty final fragment completes it. -/
theorem eof_finalization_delivers_raw_buffer :
    (ParseBashHistory NewHistoryIngestor (fun _ => Time.Unix 1700000000)
        ["echo a\\".toList] Time.zero (storeAll : Callback _ Unit) []).1.store =
      [⟨Time.Unix 1700000000, "echo a\n".toList, 0, true⟩] ∧
    cleanCommand "echo a\n".toList = "echo a".toList ∧
    (ParseBashHistory NewHistoryIngestor (fun _ => Time.Unix 1700000000)
        ["echo a\\".toList, []] Time.zero (storeAll : Callback _ Unit) []).1.store =
      [⟨Time.Unix 1700000000, "echo a".toList, 0, true⟩] := by
  decide

theorem Time.not_After_iff (t u : Time) :
    Time.After t u = false ↔ (t = u ∨ Time.After u t = true) := by
  rcases t with ⟨ts, tn⟩
  rcases u with ⟨us, un⟩
  simp only [Time.After, Time.mk.injEq, Bool.or_eq_false_iff, Bool.and_eq_false_iff,
    Bool.or_eq_true, Bool.and_eq_true, decide_eq_true_eq, decide_eq_false_iff_not,
    beq_iff_eq, beq_eq_false_iff_ne, ne_eq]
  constructor
  · rintro ⟨h1, h2⟩
    rcases h2 with h2 | h2 <;> omega
  · rintro (⟨h1, h2⟩ | h | ⟨h1, h2⟩) <;> constructor <;> omega

/-- C7: for a complete command with non-empty trimmed text, `handleCommand`
invokes the decision function exactly when the timestamp is the zero time or
strictly after the watermark, and then returns its answer (status, error and
store) unchanged; a non-zero timestamp equal to or before the watermark is
answered `Skipped` without invoking the decision function. One of the two cases
always applies. -/
theorem watermark_gate {σ ε : Type} (fromTimestamp : Time) (cmd : HistoryCommand)
    (callback : Callback σ ε) (s : σ) (log : List HistoryCommand)
    (hfin : cmd.ParseFinished = true) (hne : strings.TrimSpace cmd.Command ≠ []) :
    (cmd.Timestamp.IsZero = true ∨ cmd.Timestamp.After fromTimestamp = true →
      handleCommand fromTimestamp cmd (recording callback) (s, log) =
          ((callback cmd s).1, ((callback cmd s).2, log ++ [cmd])) ∧
        handleCommand fromTimestamp cmd callback s = callback cmd s) ∧
    (cmd.Timestamp.IsZero = false ∧
        (cmd.Timestamp = fromTimestamp ∨ fromTimestamp.After cmd.Timestamp = true) →
      handleCommand fromTimestamp cmd (recording callback) (s, log) =
          ((CommandImportedStatusSkipped, none), (s, log)) ∧
        handleCommand fromTimestamp cmd callback s =
          ((CommandImportedStatusSkipped, none), s)) ∧
    ((cmd.Timestamp.IsZero = true ∨ cmd.Timestamp.After fromTimestamp = true) ∨
      (cmd.Timestamp.IsZero = false ∧
        (cmd.Timestamp = fromTimestamp ∨ fromTimestamp.After cmd.Timestamp = true))) := by
  refine ⟨?_, ?_, ?_⟩
  · intro hg
    have hg2 : (cmd.Timestamp.IsZero || cmd.Timestamp.After fromTimestamp) = true := by
      simpa using hg
    constructor
    · simp only [handleCommand, hfin, hne, hg2, recording]
      rcases callback cmd s with ⟨⟨st, err⟩, s1⟩
      cases err <;> simp
    · simp only [handleCommand, hfin, hne, hg2]
      rcases callback cmd s with ⟨⟨st, err⟩, s1⟩
      cases err <;> simp
  · rintro ⟨hz, ha⟩
    have ha2 := (Time.not_After_iff cmd.Timestamp fromTimestamp).mpr ha
    simp [handleCommand, hfin, hne, hz, ha2]
  · cases hz : cmd.Timestamp.IsZero
    · cases ha : cmd.Timestamp.After fromTimestamp
      · exact Or.inr ⟨rfl, (Time.not_After_iff _ _).mp ha⟩
      · exact Or.inl (Or.inr rfl)
    · exact Or.inl (Or.inl rfl)

theorem watermark_gate_witness :
    (handleCommand (Time.Unix 100) ⟨Time.Unix 100, "ls".toList, 0, true⟩
        (recording (storeAll : Callback _ Unit)) ([], [])
      = ((CommandImportedStatusSkipped, none), ([], []))) ∧
    (handleCommand (Time.Unix 100) ⟨Time.Unix 101, "ls".toList, 0, true⟩
        (recording (storeAll : Callback _ Unit)) ([], [])
      = ((CommandImportedStatusNew, none),
          ([⟨Time.Unix 101, "ls".toList, 0, true⟩], [⟨Time.Unix 101, "ls".toList, 0, true⟩]))) :=
  ⟨((watermark_gate (Time.Unix 100) ⟨Time.Unix 100, "ls".toList, 0, true⟩
      (storeAll : Callback _ Unit) [] [] rfl (by decide)).2.1 ⟨by decide, Or.inl rfl⟩).1,
   ((watermark_gate (Time.Unix 100) ⟨Time.Unix 101, "ls".toList, 0, true⟩
      (storeAll : Callback _ Unit) [] [] rfl (by decide)).1 (Or.inr (by decide))).1⟩

end processors

namespace command

open processors

/-- C9: with a persistence write `UpdateCommand` that leaves the record it is
handed as it is, the confirmed delete action calls `UpdateCommand` on the
command with status `Deleted`; when the update succeeds the command is left
with status `Deleted` and every other field as before; when the update fails
with `err` the command is left exactly as it was (status restored to the prior
value) and `err` is reported. The store is as `UpdateCommand` left it. -/
theorem delete_all_or_nothing {δ ε : Type}
    (UpdateCommand : Command → δ → (Option ε × Command) × δ)
    (hframe : ∀ c d, (UpdateCommand c d).1.2 = c)
    (nextRowID : Int) (cmd : Command) (db : δ) :
    (deleteAction UpdateCommand nextRowID cmd db).2.2 =
        (UpdateCommand { cmd with Status := CommandStatus.Deleted } db).2 ∧
    ((UpdateCommand { cmd with Status := CommandStatus.Deleted } db).1.1 = none →
      (deleteAction UpdateCommand nextRowID cmd db).1 =
          { cmd with Status := CommandStatus.Deleted } ∧
        (deleteAction UpdateCommand nextRowID cmd db).1.Status = CommandStatus.Deleted ∧
        (deleteAction UpdateCommand nextRowID cmd db).2.1 =
          DeleteResult.Reload nextRowID cmd.ID) ∧
    (∀ err, (UpdateCommand { cmd with Status := CommandStatus.Deleted } db).1.1 = some err →
      (deleteAction UpdateCommand nextRowID cmd db).1 = cmd ∧
        (deleteAction UpdateCommand nextRowID cmd db).2.1 = DeleteResult.ReportError err) ∧
    handleDeleteRow UpdateCommand nextRowID (some cmd) =
      some (deleteAction UpdateCommand nextRowID cmd) := by
  have hf := hframe { cmd with Status := CommandStatus.Deleted } db
  rcases hU : UpdateCommand { cmd with Status := CommandStatus.Deleted } db with ⟨⟨o, c2⟩, db1⟩
  rw [hU] at hf
  simp only at hf
  subst hf
  cases o with
  | none =>
    refine ⟨?_, ?_, ?_, rfl⟩
    · simp [deleteAction, hU]
    · intro _
      simp [deleteAction, hU]
    · intro err herr
      simp at herr
  | some e =>
    refine ⟨?_, ?_, ?_, rfl⟩
    · simp [deleteAction, hU]
    · intro herr
      simp at herr
    · intro err herr
      simp only [Option.some.injEq] at herr
      subst herr
      simp [deleteAction, hU]

theorem delete_witness :
    (deleteAction flagUpdate 7
        ⟨3, "t".toList, [], "ls".toList, 0, Time.zero, Time.zero, CommandStatus.Bookmarked,
          LintStatus.OK⟩ false).1 =
      ⟨3, "t".toList, [], "ls".toList, 0, Time.zero, Time.zero, CommandStatus.Bookmarked,
        LintStatus.OK⟩ ∧
    (deleteAction flagUpdate 7
        ⟨3, "t".toList, [], "ls".toList, 0, Time.zero, Time.zero, CommandStatus.Bookmarked,
          LintStatus.OK⟩ true).1 =
      ⟨3, "t".toList, [], "ls".toList, 0, Time.zero, Time.zero, CommandStatus.Deleted,
        LintStatus.OK⟩ :=
  ⟨((delete_all_or_nothing flagUpdate (fun _ _ => rfl) 7
      ⟨3, "t".toList, [], "ls".toList, 0, Time.zero, Time.zero, CommandStatus.Bookmarked,
        LintStatus.OK⟩ false).2.2.1 () rfl).1,
   ((delete_all_or_nothing flagUpdate (fun _ _ => rfl) 7
      ⟨3, "t".toList, [], "ls".toList, 0, Time.zero, Time.zero, CommandStatus.Bookmarked,
        LintStatus.OK⟩ true).2.1 rfl).1⟩

end command

namespace processors

/-! ## Errors of the decision function -/

theorem scanLines_append {σ ε : Type} (clock : Nat → Time) (fromTimestamp : Time)
    (callback : Callback σ ε) (pre rest : List Str) (st : ScanState σ) :
    scanLines clock fromTimestamp callback (pre ++ rest) st =
      match scanLines clock fromTimestamp callback pre st with
      | (st1, some err) => (st1, some err)
      | (st1, none) => scanLines clock fromTimestamp callback rest st1 := by
  induction pre generalizing st with
  | nil => simp [scanLines]
  | cons l ls ih =>
    simp only [List.cons_append, scanLines]
    split
    · exact ih _
    · rcases processHistoryLine (clock (st.lineNumber + 1)) l st.commandBuilder
        st.currentCommand with ⟨builder, cmd⟩
      simp only
      rcases handleCommand fromTimestamp cmd callback st.store with ⟨⟨status, err⟩, store1⟩
      cases err with
      | some e => simp
      | none =>
        simp only
        split
        · exact ih _
        · exact ih _

theorem countersLe_refl (h : HistoryIngestor) : countersLe h h := by
  simp [countersLe]

theorem countersLe_trans {a b c : HistoryIngestor} (h1 : countersLe a b)
    (h2 : countersLe b c) : countersLe a c := by
  simp only [countersLe] at *
  omega

theorem updateStats_mono (h : HistoryIngestor) (s : CommandImportedStatus) :
    countersLe h (updateStats h s) := by
  simp only [updateStats, countersLe]
  split_ifs <;> simp

theorem scanLines_mono {σ ε : Type} (clock : Nat → Time) (fromTimestamp : Time)
    (callback : Callback σ ε) (lines : List Str) (st : ScanState σ) :
    countersLe st.h (scanLines clock fromTimestamp callback lines st).1.h := by
  induction lines generalizing st with
  | nil => exact countersLe_refl _
  | cons l ls ih =>
    simp only [scanLines]
    split
    · exact ih { st with lineNumber := st.lineNumber + 1 }
    · rcases processHistoryLine (clock (st.lineNumber + 1)) l st.commandBuilder
        st.currentCommand with ⟨builder, cmd⟩
      simp only
      rcases handleCommand fromTimestamp cmd callback st.store with ⟨⟨status, err⟩, store1⟩
      cases err with
      | some e => exact updateStats_mono _ _
      | none =>
        simp only
        split
        · exact countersLe_trans (updateStats_mono st.h status)
            (ih ⟨updateStats st.h status, [], none, st.lineNumber + 1, store1,
              st.handled ++ [cmd]⟩)
        · exact countersLe_trans (updateStats_mono st.h status)
            (ih ⟨updateStats st.h status, builder, some cmd, st.lineNumber + 1, store1,
              st.handled ++ [cmd]⟩)

/-- An error returned by `handleCommand` is the answer of the decision
function, invoked on that command. -/
theorem handleCommand_error {σ ε : Type} (fromTimestamp : Time) (cmd : HistoryCommand)
    (callback : Callback σ ε) (s s1 : σ) (status : CommandImportedStatus) (e : ε)
    (h : handleCommand fromTimestamp cmd callback s = ((status, some e), s1)) :
    callback cmd s = ((status, some e), s1) := by
  simp only [handleCommand] at h
  split at h
  · simp at h
  · split at h
    · simp at h
    · split at h
      · rcases hc : callback cmd s with ⟨⟨st, err⟩, s2⟩
        rw [hc] at h
        cases err with
        | none => simp at h
        | some e2 => simpa using h
      · simp at h

/-- The loop case of C8: the error arises at the line after `pre`. -/
theorem scan_error_aborts {σ ε : Type} (h0 : HistoryIngestor) (clock : Nat → Time)
    (fromTimestamp : Time) (callback : Callback σ ε) (store0 : σ)
    (pre : List Str) (line : Str) (post : List Str) (st : ScanState σ)
    (builder : Str) (cmd : HistoryCommand) (status : CommandImportedStatus) (e : ε) (s1 : σ)
    (hpre : scanLines clock fromTimestamp callback pre (ScanState.start h0 store0) = (st, none))
    (hskip : ¬ (line = [] ∧ st.currentCommand = none))
    (hp : processHistoryLine (clock (st.lineNumber + 1)) line st.commandBuilder
      st.currentCommand = (builder, cmd))
    (hcall : handleCommand fromTimestamp cmd callback st.store = ((status, some e), s1)) :
    callback cmd st.store = ((status, some e), s1) ∧
    ParseBashHistory h0 clock (pre ++ line :: post) fromTimestamp callback store0 =
      ({ h := updateStats st.h status
         commandBuilder := builder
         currentCommand := some cmd
         lineNumber := st.lineNumber + 1
         store := s1
         handled := st.handled ++ [cmd] }, some e) ∧
    countersLe h0 st.h ∧ countersLe h0 (updateStats st.h status) := by
  have hmono : countersLe h0 st.h := by
    have := scanLines_mono clock fromTimestamp callback pre (ScanState.start h0 store0)
    rw [hpre] at this
    exact this
  refine ⟨handleCommand_error fromTimestamp cmd callback _ _ status e hcall, ?_, hmono,
    countersLe_trans hmono (updateStats_mono _ _)⟩
  simp only [ParseBashHistory]
  rw [scanLines_append, hpre]
  simp only [scanLines]
  rw [if_neg hskip]
  simp only [hp, hcall]

/-- The end-of-input case of C8: the error arises for the command finalized
after the last line. -/
theorem finalize_error_returned {σ ε : Type} (h0 : HistoryIngestor) (clock : Nat → Time)
    (fromTimestamp : Time) (callback : Callback σ ε) (store0 : σ)
    (lines : List Str) (st : ScanState σ) (c : HistoryCommand)
    (status : CommandImportedStatus) (e : ε) (s1 : σ)
    (hscan : scanLines clock fromTimestamp callback lines (ScanState.start h0 store0) = (st, none))
    (hc : st.currentCommand = some c)
    (hcall : handleCommand fromTimestamp
      { c with ParseFinished := true, Command := st.commandBuilder } callback st.store =
        ((status, some e), s1)) :
    callback { c with ParseFinished := true, Command := st.commandBuilder } st.store =
      ((status, some e), s1) ∧
    ParseBashHistory h0 clock lines fromTimestamp callback store0 =
      ({ st with
         h := updateStats st.h status
         currentCommand := some { c with ParseFinished := true, Command := st.commandBuilder }
         store := s1
         handled := st.handled ++
           [{ c with ParseFinished := true, Command := st.commandBuilder }] }, some e) ∧
    countersLe h0 st.h ∧ countersLe h0 (updateStats st.h status) := by
  have hmono : countersLe h0 st.h := by
    have := scanLines_mono clock fromTimestamp callback lines (ScanState.start h0 store0)
    rw [hscan] at this
    exact this
  refine ⟨handleCommand_error fromTimestamp _ callback _ _ status e hcall, ?_, hmono,
    countersLe_trans hmono (updateStats_mono _ _)⟩
  simp only [ParseBashHistory, hscan, finalizeCommand, hc, hcall]

/-- C8: when the decision function answers a command with a status and an
error `e`, `ParseBashHistory` returns `e` at once; the store is the one the
failing call left, the counters are those accumulated before, updated once with
the returned status, and no counter is below its initial value. (1) In the
loop: the lines `pre` were scanned without error and the error arises for the
command completed by the next line; the result is the same whatever lines
`post` follow, so there is no later call and no end-of-input step. (2) At the
end of input: all lines were scanned without error and the error arises for the
command finalized there. -/
theorem decision_error_aborts {σ ε : Type} (h0 : HistoryIngestor) (clock : Nat → Time)
    (fromTimestamp : Time) (callback : Callback σ ε) (store0 : σ) :
    (∀ (pre : List Str) (line : Str) (post : List Str) (st : ScanState σ)
        (builder : Str) (cmd : HistoryCommand) (status : CommandImportedStatus) (e : ε) (s1 : σ),
      scanLines clock fromTimestamp callback pre (ScanState.start h0 store0) = (st, none) →
      ¬ (line = [] ∧ st.currentCommand = none) →
      processHistoryLine (clock (st.lineNumber + 1)) line st.commandBuilder
        st.currentCommand = (builder, cmd) →
      handleCommand fromTimestamp cmd callback st.store = ((status, some e), s1) →
      callback cmd st.store = ((status, some e), s1) ∧
      ParseBashHistory h0 clock (pre ++ line :: post) fromTimestamp callback store0 =
        ({ h := updateStats st.h status
           commandBuilder := builder
           currentCommand := some cmd
           lineNumber := st.lineNumber + 1
           store := s1
           handled := st.handled ++ [cmd] }, some e) ∧
      countersLe h0 st.h ∧ countersLe h0 (updateStats st.h status)) ∧
    (∀ (lines : List Str) (st : ScanState σ) (c : HistoryCommand)
        (status : CommandImportedStatus) (e : ε) (s1 : σ),
      scanLines clock fromTimestamp callback lines (ScanState.start h0 store0) = (st, none) →
      st.currentCommand = some c →
      handleCommand fromTimestamp
        { c with ParseFinished := true, Command := st.commandBuilder } callback st.store =
          ((status, some e), s1) →
      callback { c with ParseFinished := true, Command := st.commandBuilder } st.store =
        ((status, some e), s1) ∧
      ParseBashHistory h0 clock lines fromTimestamp callback store0 =
        ({ st with
           h := updateStats st.h status
           currentCommand := some { c with ParseFinished := true, Command := st.commandBuilder }
           store := s1
           handled := st.handled ++
             [{ c with ParseFinished := true, Command := st.commandBuilder }] }, some e) ∧
      countersLe h0 st.h ∧ countersLe h0 (updateStats st.h status)) :=
  ⟨fun pre line post st builder cmd status e s1 hpre hskip hp hcall =>
      scan_error_aborts h0 clock fromTimestamp callback store0 pre line post st builder cmd
        status e s1 hpre hskip hp hcall,
   fun lines st c status e s1 hscan hc hcall =>
      finalize_error_returned h0 clock fromTimestamp callback store0 lines st c status e s1
        hscan hc hcall⟩

theorem decision_error_witness :
    ParseBashHistory NewHistoryIngestor (fun _ => Time.Unix 1700000000)
        (["ls".toList] ++ "pwd".toList :: ["id".toList, "tail \\".toList]) Time.zero
        (failOn "pwd".toList) [] =
      ({ h := ⟨2, 1, 0, 1, 0, 0⟩
         commandBuilder := "pwd".toList
         currentCommand := some ⟨Time.Unix 1700000000, "pwd".toList, 0, true⟩
         lineNumber := 2
         store := [⟨Time.Unix 1700000000, "ls".toList, 0, true⟩,
                   ⟨Time.Unix 1700000000, "pwd".toList, 0, true⟩]
         handled := [⟨Time.Unix 1700000000, "ls".toList, 0, true⟩,
                     ⟨Time.Unix 1700000000, "pwd".toList, 0, true⟩] }, some ()) :=
  ((decision_error_aborts NewHistoryIngestor (fun _ => Time.Unix 1700000000) Time.zero
    (failOn "pwd".toList) []).1 ["ls".toList] "pwd".toList ["id".toList, "tail \\".toList]
    ⟨⟨1, 1, 0, 0, 0, 0⟩, [], none, 1, [⟨Time.Unix 1700000000, "ls".toList, 0, true⟩],
      [⟨Time.Unix 1700000000, "ls".toList, 0, true⟩]⟩
    "pwd".toList ⟨Time.Unix 1700000000, "pwd".toList, 0, true⟩ CommandImportedStatusError ()
    [⟨Time.Unix 1700000000, "ls".toList, 0, true⟩, ⟨Time.Unix 1700000000, "pwd".toList, 0, true⟩]
    (by decide) (by decide) (by decide) (by decide)).2.1

/-! ## Sanitization -/

theorem filter_dropWhile_of_disjoint (p r : Char → Bool) (l : Str)
    (hpr : ∀ x, p x = true → r x = false) :
    (l.dropWhile p).filter r = l.filter r := by
  induction l with
  | nil => rfl
  | cons x xs ih =>
    rw [List.dropWhile_cons]
    by_cases hx : p x = true
    · rw [if_pos hx, ih, List.filter_cons_of_neg (by simp [hpr x hx])]
    · rw [if_neg hx]

theorem filter_trimEnd_of_disjoint (p r : Char → Bool) (l : Str)
    (hpr : ∀ x, p x = true → r x = false) :
    ((l.reverse.dropWhile p).reverse).filter r = l.filter r := by
  rw [List.filter_reverse, filter_dropWhile_of_disjoint p r _ hpr, List.filter_reverse,
    List.reverse_reverse]

theorem trimEnd_isPrefix (p : Char → Bool) (l : Str) :
    (l.reverse.dropWhile p).reverse <+: l :=
  List.rdropWhile_prefix p l

theorem head?_trimEnd (p : Char → Bool) (l : Str) (c : Char)
    (h : ((l.reverse.dropWhile p).reverse).head? = some c) : l.head? = some c := by
  obtain ⟨t, ht⟩ := trimEnd_isPrefix p l
  cases hT : (l.reverse.dropWhile p).reverse with
  | nil => rw [hT] at h; simp at h
  | cons x xs =>
    rw [hT] at h ht
    simp only [List.head?_cons, Option.some.injEq] at h
    subst h
    rw [← ht]
    rfl

theorem newline_IsSpace (x : Char) (h : (['\n'] : Str).contains x = true) :
    (!unicode.IsSpace x) = false := by
  have hx : x = '\n' := by simpa using h
  subst hx
  decide

theorem TrimSpace_head (s : Str) (c : Char) (h : (strings.TrimSpace s).head? = some c) :
    unicode.IsSpace c = false := by
  have h1 := head?_trimEnd unicode.IsSpace (s.dropWhile unicode.IsSpace) c h
  have h2 := List.head?_dropWhile_not unicode.IsSpace s
  rw [h1] at h2
  exact h2

theorem TrimSpace_getLast (s : Str) (c : Char) (h : (strings.TrimSpace s).getLast? = some c) :
    unicode.IsSpace c = false := by
  simp only [strings.TrimSpace, List.getLast?_reverse] at h
  have h2 := List.head?_dropWhile_not unicode.IsSpace (s.dropWhile unicode.IsSpace).reverse
  rw [h] at h2
  exact h2

theorem cleanCommand_isInfix (s : Str) : cleanCommand s <:+: removeControlCharacters s := by
  simp only [cleanCommand, strings.TrimSpace, strings.TrimRight, strings.TrimLeft]
  refine List.IsInfix.trans (trimEnd_isPrefix _ _).isInfix ?_
  refine List.IsInfix.trans (List.dropWhile_suffix _).isInfix ?_
  refine List.IsInfix.trans (trimEnd_isPrefix _ _).isInfix ?_
  exact (List.dropWhile_suffix _).isInfix

/-- C10: for every input `s`, `cleanCommand s` holds no rune above `0x7F`; its
runes other than white space are exactly the ASCII runes of `s` other than
white space, in the same order; it is a contiguous piece of `s` without its
runes above `0x7F`; and it neither begins nor ends with white space (so with no
blank line). -/
theorem cleanCommand_sanitized (s : Str) :
    (∀ c ∈ cleanCommand s, c.toNat ≤ 0x7F) ∧
    (cleanCommand s).filter (fun c => !unicode.IsSpace c) =
      s.filter (fun c => !unicode.IsSpace c && decide (c.toNat ≤ 0x7F)) ∧
    cleanCommand s <:+: s.filter (fun c => decide (c.toNat ≤ 0x7F)) ∧
    (∀ c, (cleanCommand s).head? = some c → unicode.IsSpace c = false) ∧
    (∀ c, (cleanCommand s).getLast? = some c → unicode.IsSpace c = false) := by
  refine ⟨?_, ?_, cleanCommand_isInfix s, ?_, ?_⟩
  · intro c hc
    have hm := (cleanCommand_isInfix s).subset hc
    simp only [removeControlCharacters, List.mem_filter, decide_eq_true_eq] at hm
    exact hm.2
  · simp only [cleanCommand, strings.TrimSpace, strings.TrimRight, strings.TrimLeft,
      removeControlCharacters]
    rw [filter_trimEnd_of_disjoint _ _ _ (fun x hx => by simp [hx]),
      filter_dropWhile_of_disjoint _ _ _ (fun x hx => by simp [hx]),
      filter_trimEnd_of_disjoint _ _ _ newline_IsSpace,
      filter_dropWhile_of_disjoint _ _ _ newline_IsSpace, List.filter_filter]
  · intro c hc
    exact TrimSpace_head _ c hc
  · intro c hc
    exact TrimSpace_getLast _ c hc

/-! ## Two passes over the same source -/

/-- C6, as stated, fails: for the source with the single plain line `ls`, read
at 2023-11-14 22:13:20 UTC in the first pass and one minute later in the
second, the second pass hands the command to the decision function again and
counts it as imported. -/
theorem second_pass_reimports_plain_line :
    (firstPass (fun _ => Time.Unix 1700000000) ["ls".toList]).1.store =
      [⟨Time.Unix 1700000000, "ls".toList, 0, true⟩] ∧
    (secondPass NewHistoryIngestor (fun _ => Time.Unix 1700000060) ["ls".toList]
        (firstPass (fun _ => Time.Unix 1700000000) ["ls".toList]).1.store).1.store =
      [⟨Time.Unix 1700000000, "ls".toList, 0, true⟩,
       ⟨Time.Unix 1700000060, "ls".toList, 0, true⟩] ∧
    (secondPass NewHistoryIngestor (fun _ => Time.Unix 1700000060) ["ls".toList]
        (firstPass (fun _ => Time.Unix 1700000000) ["ls".toList]).1.store).1.h.importedCmdCount
      = 1 := by
  decide

theorem handleCommand_storeAll (fromTimestamp : Time) (cmd : HistoryCommand)
    (s : List HistoryCommand) :
    handleCommand fromTimestamp cmd (storeAll : Callback _ Unit) s =
      if reachesCallback fromTimestamp cmd then ((CommandImportedStatusNew, none), s ++ [cmd])
      else if cmd.ParseFinished then ((CommandImportedStatusSkipped, none), s)
      else ((CommandImportedStatusInProgress, none), s) := by
  cases hf : cmd.ParseFinished
  · simp [handleCommand, reachesCallback, hf]
  · by_cases hb : strings.TrimSpace cmd.Command = []
    · simp [handleCommand, reachesCallback, hf, hb]
    · cases hg : (cmd.Timestamp.IsZero || cmd.Timestamp.After fromTimestamp)
      · simp [handleCommand, reachesCallback, hf, hb, hg]
      · simp [handleCommand, reachesCallback, hf, hb, hg, storeAll]

theorem updateStats_imported_New (h : HistoryIngestor) :
    (updateStats h CommandImportedStatusNew).importedCmdCount = h.importedCmdCount + 1 := by
  simp [updateStats, CommandImportedStatusNew, CommandImportedStatusInProgress]

theorem updateStats_imported_Skipped (h : HistoryIngestor) :
    (updateStats h CommandImportedStatusSkipped).importedCmdCount = h.importedCmdCount := by
  simp [updateStats, CommandImportedStatusNew, CommandImportedStatusInProgress,
    CommandImportedStatusSkipped, CommandImportedStatusError,
    CommandImportedStatusFilteredOut, CommandImportedStatusAlreadyExists]

/-- One classification step under `storeAll`: never an error; the store and
the imported counter grow exactly when the command reaches the decision
function. -/
theorem handleCommand_storeAll_step (fromTimestamp : Time) (cmd : HistoryCommand)
    (s : List HistoryCommand) (h : HistoryIngestor) :
    ∃ status,
      handleCommand fromTimestamp cmd (storeAll : Callback _ Unit) s =
        ((status, none), s ++ [cmd].filter (reachesCallback fromTimestamp)) ∧
      (updateStats h status).importedCmdCount =
        h.importedCmdCount + ([cmd].filter (reachesCallback fromTimestamp)).length := by
  rw [handleCommand_storeAll]
  cases hr : reachesCallback fromTimestamp cmd
  · cases hf : cmd.ParseFinished
    · exact ⟨CommandImportedStatusInProgress, by simp [hr], by
        simp [hr, updateStats_InProgress]⟩
    · exact ⟨CommandImportedStatusSkipped, by simp [hr], by
        simp [hr, updateStats_imported_Skipped]⟩
  · exact ⟨CommandImportedStatusNew, by simp [hr], by simp [hr, updateStats_imported_New]⟩

/-- A pass under `storeAll` ends without error; it logs the parsed commands and
stores, and counts as imported, those that reach the decision function. -/
theorem runFrom_storeAll (clock : Nat → Time) (fromTimestamp : Time) (lines : List Str)
    (st : ScanState (List HistoryCommand)) :
    (runFrom clock fromTimestamp (storeAll : Callback _ Unit) lines st).2 = none ∧
    (runFrom clock fromTimestamp (storeAll : Callback _ Unit) lines st).1.store =
      st.store ++ (parsedCommands clock lines st.lineNumber st.commandBuilder
        st.currentCommand).filter (reachesCallback fromTimestamp) ∧
    (runFrom clock fromTimestamp (storeAll : Callback _ Unit) lines st).1.h.importedCmdCount =
      st.h.importedCmdCount + ((parsedCommands clock lines st.lineNumber st.commandBuilder
        st.currentCommand).filter (reachesCallback fromTimestamp)).length := by
  induction lines generalizing st with
  | nil =>
    rcases st with ⟨h0, b, cc, ln, store0, hd⟩
    cases cc with
    | none => simp [runFrom, scanLines, finalizeCommand, parsedCommands]
    | some c =>
      obtain ⟨status, h1, h2⟩ := handleCommand_storeAll_step fromTimestamp
        { c with ParseFinished := true, Command := b } store0 h0
      simp only [runFrom, scanLines, finalizeCommand, parsedCommands, h1]
      exact ⟨trivial, trivial, h2⟩
  | cons l ls ih =>
    rcases st with ⟨h0, b, cc, ln, store0, hd⟩
    by_cases hskip : l = [] ∧ cc = none
    · have heq : runFrom clock fromTimestamp (storeAll : Callback _ Unit) (l :: ls)
          ⟨h0, b, cc, ln, store0, hd⟩ =
          runFrom clock fromTimestamp storeAll ls ⟨h0, b, cc, ln + 1, store0, hd⟩ := by
        simp only [runFrom, scanLines, if_pos hskip]
      have hpc : parsedCommands clock (l :: ls) ln b cc =
          parsedCommands clock ls (ln + 1) b cc := by
        simp only [parsedCommands, if_pos hskip]
      rw [heq]
      simp only [hpc]
      exact ih ⟨h0, b, cc, ln + 1, store0, hd⟩
    · rcases hp : processHistoryLine (clock (ln + 1)) l b cc with ⟨b1, c⟩
      obtain ⟨status, h1, h2⟩ := handleCommand_storeAll_step fromTimestamp c store0 h0
      cases hf : c.ParseFinished
      · have heq : runFrom clock fromTimestamp (storeAll : Callback _ Unit) (l :: ls)
            ⟨h0, b, cc, ln, store0, hd⟩ =
            runFrom clock fromTimestamp storeAll ls ⟨updateStats h0 status, b1, some c, ln + 1,
              store0 ++ [c].filter (reachesCallback fromTimestamp), hd ++ [c]⟩ := by
          simp only [runFrom, scanLines, if_neg hskip, hp, h1, hf]
          rfl
        have hpc : parsedCommands clock (l :: ls) ln b cc =
            c :: parsedCommands clock ls (ln + 1) b1 (some c) := by
          simp [parsedCommands, hskip, hp, hf]
        obtain ⟨i1, i2, i3⟩ := ih ⟨updateStats h0 status, b1, some c, ln + 1,
          store0 ++ [c].filter (reachesCallback fromTimestamp), hd ++ [c]⟩
        simp only at i2 i3
        rw [heq]
        simp only [hpc]
        refine ⟨i1, ?_, ?_⟩
        · rw [i2]
          cases hr : reachesCallback fromTimestamp c <;> simp [List.filter_cons, hr]
        · rw [i3, h2]
          cases hr : reachesCallback fromTimestamp c <;> simp [List.filter_cons, hr]
          omega
      · have heq : runFrom clock fromTimestamp (storeAll : Callback _ Unit) (l :: ls)
            ⟨h0, b, cc, ln, store0, hd⟩ =
            runFrom clock fromTimestamp storeAll ls ⟨updateStats h0 status, [], none, ln + 1,
              store0 ++ [c].filter (reachesCallback fromTimestamp), hd ++ [c]⟩ := by
          simp only [runFrom, scanLines, if_neg hskip, hp, h1, hf]
          rfl
        have hpc : parsedCommands clock (l :: ls) ln b cc =
            c :: parsedCommands clock ls (ln + 1) [] none := by
          simp [parsedCommands, hskip, hp, hf]
        obtain ⟨i1, i2, i3⟩ := ih ⟨updateStats h0 status, [], none, ln + 1,
          store0 ++ [c].filter (reachesCallback fromTimestamp), hd ++ [c]⟩
        simp only at i2 i3
        rw [heq]
        simp only [hpc]
        refine ⟨i1, ?_, ?_⟩
        · rw [i2]
          cases hr : reachesCallback fromTimestamp c <;> simp [List.filter_cons, hr]
        · rw [i3, h2]
          cases hr : reachesCallback fromTimestamp c <;> simp [List.filter_cons, hr]
          omega

theorem Time.After_iff (t u : Time) :
    Time.After t u = true ↔ (t.sec > u.sec ∨ (t.sec = u.sec ∧ t.nsec > u.nsec)) := by
  simp [Time.After]

theorem Time.After_false_iff (t u : Time) :
    Time.After t u = false ↔ (t.sec < u.sec ∨ (t.sec = u.sec ∧ t.nsec ≤ u.nsec)) := by
  rw [← Bool.not_eq_true, Time.After_iff]
  omega

theorem Time.not_After_trans (a b c : Time) (h1 : Time.After a b = false)
    (h2 : Time.After b c = false) : Time.After a c = false := by
  rw [Time.After_false_iff] at *
  omega

theorem foldl_max_ge_init (l : List HistoryCommand) (m : Time) :
    Time.After m (l.foldl
      (fun m c => if (storedCreation c).After m then storedCreation c else m) m) = false := by
  induction l generalizing m with
  | nil =>
    rw [List.foldl_nil, Time.After_false_iff]
    omega
  | cons x xs ih =>
    rw [List.foldl_cons]
    by_cases hx : (storedCreation x).After m = true
    · rw [if_pos hx]
      refine Time.not_After_trans _ _ _ ?_ (ih _)
      rw [Time.After_iff] at hx
      rw [Time.After_false_iff]
      omega
    · rw [if_neg hx]
      exact ih _

theorem foldl_max_ge_mem (l : List HistoryCommand) (m : Time) (c : HistoryCommand)
    (hc : c ∈ l) :
    Time.After (storedCreation c) (l.foldl
      (fun m c => if (storedCreation c).After m then storedCreation c else m) m) = false := by
  induction l generalizing m with
  | nil => simp at hc
  | cons x xs ih =>
    rw [List.foldl_cons]
    rcases List.mem_cons.mp hc with rfl | hc
    · refine Time.not_After_trans _ _ _ ?_ (foldl_max_ge_init xs _)
      by_cases hx : (storedCreation c).After m = true
      · rw [if_pos hx, Time.After_false_iff]
        omega
      · rw [if_neg hx]
        simpa using hx
    · exact ih _ hc

theorem ParseTimestamp_nsec (hdr : Str) (t : Time) (e : Int)
    (h : ParseTimestamp hdr = (t, e, none)) : t.nsec = 0 := by
  simp only [ParseTimestamp] at h
  split at h
  · simp at h
  · split at h
    · simp at h
    · split at h
      · simp at h
      · simp only [Prod.mk.injEq, and_true] at h
        rw [← h.1]
        rfl

/-- A stamped header determines the outcome of `parseFirstHistoryLine`
whatever the clock reads. -/
theorem stampedHeader_parse (line : Str) (h : stampedHeader line = true) :
    ∃ ts el part, ts.IsZero = false ∧ ts.nsec = 0 ∧
      ∀ now, parseFirstHistoryLine now line = (ts, el, part, true) := by
  rcases parseFirstHistoryLine_cases Time.zero line with h0 | ⟨hdr, c, t, e, rfl, hsemi, hP, h0⟩
  · simp [stampedHeader, h0] at h
  · refine ⟨t, e, c, ?_, ParseTimestamp_nsec hdr t e hP, ?_⟩
    · simpa [stampedHeader, h0] using h
    · intro now
      rw [parseFirstHistoryLine_semicolon now hdr c hsemi, hP]

/-- On a stamped source the parsed commands do not depend on the clock, and
each carries a non-zero timestamp in whole seconds. -/
theorem parsedCommands_stamped (clock1 clock2 : Nat → Time) (lines : List Str)
    (n1 n2 : Nat) (b : Str) (cur : Option HistoryCommand)
    (hs : stampedSource cur.isSome lines = true)
    (hcur : ∀ c, cur = some c →
      c.Timestamp.IsZero = false ∧ c.Timestamp.nsec = 0 ∧ c.ParseFinished = false) :
    parsedCommands clock1 lines n1 b cur = parsedCommands clock2 lines n2 b cur ∧
    ∀ c ∈ parsedCommands clock1 lines n1 b cur,
      c.Timestamp.IsZero = false ∧ c.Timestamp.nsec = 0 := by
  induction lines generalizing n1 n2 b cur with
  | nil =>
    cases cur with
    | none => simp [parsedCommands]
    | some c0 =>
      refine ⟨rfl, ?_⟩
      intro c hc
      simp only [parsedCommands, List.mem_singleton] at hc
      subst hc
      exact ⟨(hcur c0 rfl).1, (hcur c0 rfl).2.1⟩
  | cons l ls ih =>
    cases cur with
    | none =>
      by_cases hl : l = []
      · subst hl
        have hs2 : stampedSource false ls = true := by
          simpa [stampedSource] using hs
        have := ih (n1 + 1) (n2 + 1) b none hs2 (by simp)
        simpa [parsedCommands] using this
      · have hs2 : stampedHeader l = true ∧
            stampedSource (strings.HasSuffix l ['\\']) ls = true := by
          simpa [stampedSource, hl] using hs
        obtain ⟨ts, el, part, hz, hn, hparse⟩ := stampedHeader_parse l hs2.1
        have hsuf : strings.HasSuffix part ['\\'] = strings.HasSuffix l ['\\'] := by
          have := commandPart_HasSuffix Time.zero l
          rw [hparse Time.zero] at this
          exact this
        cases hb : strings.HasSuffix l ['\\']
        · rw [hb] at hsuf
          have hp : ∀ now, processHistoryLine now l b none =
              (b ++ part, ⟨ts, cleanCommand (b ++ part), el, true⟩) := fun now =>
            processHistoryLine_idle_final now l b part ts el true (hparse now) hsuf
          have := ih (n1 + 1) (n2 + 1) [] none (by simpa [hb] using hs2.2) (by simp)
          simp only [parsedCommands, hl, false_and, if_false, hp, if_true]
          refine ⟨by rw [this.1], ?_⟩
          intro c hc
          rcases List.mem_cons.mp hc with rfl | hc
          · exact ⟨hz, hn⟩
          · exact this.2 c hc
        · rw [hb] at hsuf
          have hp : ∀ now, processHistoryLine now l b none =
              (b ++ strings.TrimRight (strings.TrimSuffix part ['\\']) [' ', '\t'] ++ ['\n'],
                ⟨ts, [], el, false⟩) := fun now =>
            processHistoryLine_idle_cont now l b part ts el true (hparse now) hsuf
          have := ih (n1 + 1) (n2 + 1)
            (b ++ strings.TrimRight (strings.TrimSuffix part ['\\']) [' ', '\t'] ++ ['\n'])
            (some ⟨ts, [], el, false⟩) (by simpa [hb] using hs2.2)
            (by
              intro c hc
              simp only [Option.some.injEq] at hc
              subst hc
              exact ⟨hz, hn, rfl⟩)
          simp only [parsedCommands, hl, false_and, if_false, hp]
          simp only [Bool.false_eq_true, if_false]
          refine ⟨by rw [this.1], ?_⟩
          intro c hc
          rcases List.mem_cons.mp hc with rfl | hc
          · exact ⟨hz, hn⟩
          · exact this.2 c hc
    | some c0 =>
      obtain ⟨hz, hn, hu⟩ := hcur c0 rfl
      have hs2 : stampedSource (strings.HasSuffix l ['\\']) ls = true := by
        simpa [stampedSource] using hs
      have hskip : ¬ (l = [] ∧ (some c0 : Option HistoryCommand) = none) := by simp
      cases hb : strings.HasSuffix l ['\\']
      · have hp : ∀ now, processHistoryLine now l b (some c0) =
            (b ++ l, { c0 with Command := cleanCommand (b ++ l), ParseFinished := true }) :=
          fun now => processHistoryLine_busy_final now l b c0 hb
        have := ih (n1 + 1) (n2 + 1) [] none (by simpa [hb] using hs2) (by simp)
        simp only [parsedCommands, if_neg hskip, hp, if_true]
        refine ⟨by rw [this.1], ?_⟩
        intro c hc
        rcases List.mem_cons.mp hc with rfl | hc
        · exact ⟨hz, hn⟩
        · exact this.2 c hc
      · have hp : ∀ now, processHistoryLine now l b (some c0) =
            (b ++ strings.TrimRight (strings.TrimSuffix l ['\\']) [' ', '\t'] ++ ['\n'], c0) :=
          fun now => processHistoryLine_busy_cont now l b c0 hb
        have := ih (n1 + 1) (n2 + 1)
          (b ++ strings.TrimRight (strings.TrimSuffix l ['\\']) [' ', '\t'] ++ ['\n'])
          (some c0) (by simpa [hb] using hs2) hcur
        simp only [parsedCommands, if_neg hskip, hp, hu]
        simp only [Bool.false_eq_true, if_false]
        refine ⟨by rw [this.1], ?_⟩
        intro c hc
        rcases List.mem_cons.mp hc with rfl | hc
        · exact ⟨hz, hn⟩
        · exact this.2 c hc

/-- C6, amended: for a source in which every command starts with a well-formed
extended header whose timestamp is not the zero time, a second pass with the
store of the first pass carried over and the watermark read from it ends
without error, hands no command to the decision function (the store is
unchanged) and leaves `importedCmdCount` as it was, whatever the clock reads in
either pass. -/
theorem second_pass_imports_nothing (h : HistoryIngestor) (clock1 clock2 : Nat → Time)
    (lines : List Str) (hs : stampedSource false lines = true) :
    (secondPass h clock2 lines (firstPass clock1 lines).1.store).2 = none ∧
    (secondPass h clock2 lines (firstPass clock1 lines).1.store).1.store =
      (firstPass clock1 lines).1.store ∧
    (secondPass h clock2 lines (firstPass clock1 lines).1.store).1.h.importedCmdCount =
      h.importedCmdCount := by
  obtain ⟨hP, hgood⟩ := parsedCommands_stamped clock1 clock2 lines 0 0 [] none hs (by simp)
  have hfirst : (firstPass clock1 lines).1.store =
      (parsedCommands clock1 lines 0 [] none).filter (reachesCallback Time.zero) :=
    (runFrom_storeAll clock1 Time.zero lines (ScanState.start NewHistoryIngestor [])).2.1
  generalize (firstPass clock1 lines).1.store = store1 at hfirst ⊢
  have g1 : (secondPass h clock2 lines store1).2 = none :=
    (runFrom_storeAll clock2 (maxStoredTimestamp store1) lines (ScanState.start h store1)).1
  have g2 : (secondPass h clock2 lines store1).1.store = store1 ++
      (parsedCommands clock2 lines 0 [] none).filter
        (reachesCallback (maxStoredTimestamp store1)) :=
    (runFrom_storeAll clock2 (maxStoredTimestamp store1) lines (ScanState.start h store1)).2.1
  have g3 : (secondPass h clock2 lines store1).1.h.importedCmdCount = h.importedCmdCount +
      ((parsedCommands clock2 lines 0 [] none).filter
        (reachesCallback (maxStoredTimestamp store1))).length :=
    (runFrom_storeAll clock2 (maxStoredTimestamp store1) lines (ScanState.start h store1)).2.2
  have hnone : (parsedCommands clock2 lines 0 [] none).filter
      (reachesCallback (maxStoredTimestamp store1)) = [] := by
    rw [List.filter_eq_nil_iff]
    intro c hc hr
    rw [← hP] at hc
    obtain ⟨hz, hn⟩ := hgood c hc
    simp only [reachesCallback, hz, Bool.false_or, Bool.and_eq_true] at hr
    obtain ⟨⟨hfin, hblank⟩, hafter⟩ := hr
    have hsc : storedCreation c = c.Timestamp := by
      rcases c with ⟨⟨sec, nsec⟩, cmd, el, pf⟩
      simp only at hn
      subst hn
      rfl
    have hwm0 := foldl_max_ge_init store1 Time.zero
    have hzero : c.Timestamp.After Time.zero = true := by
      simp only [maxStoredTimestamp] at hafter
      rw [Time.After_iff] at hafter ⊢
      rw [Time.After_false_iff] at hwm0
      omega
    have hmem : c ∈ store1 := by
      rw [hfirst, List.mem_filter]
      refine ⟨hc, ?_⟩
      simp only [reachesCallback, hfin, hblank, hzero, Bool.or_true, Bool.and_self]
    have hle := foldl_max_ge_mem store1 Time.zero c hmem
    rw [hsc] at hle
    simp only [maxStoredTimestamp] at hafter
    rw [hle] at hafter
    exact Bool.false_ne_true hafter
  refine ⟨g1, ?_, ?_⟩
  · rw [g2, hnone, List.append_nil]
  · rw [g3, hnone]
    rfl

theorem second_pass_witness :
    (secondPass NewHistoryIngestor (fun _ => Time.Unix 1700009999)
      [": 1700000000:5;echo hi".toList, ": 1700000100:0;ls \\".toList, "-l".toList]
      (firstPass (fun _ => Time.Unix 1700000200)
        [": 1700000000:5;echo hi".toList, ": 1700000100:0;ls \\".toList,
          "-l".toList]).1.store).1.store =
      (firstPass (fun _ => Time.Unix 1700000200)
        [": 1700000000:5;echo hi".toList, ": 1700000100:0;ls \\".toList,
          "-l".toList]).1.store :=
  (second_pass_imports_nothing NewHistoryIngestor (fun _ => Time.Unix 1700000200)
    (fun _ => Time.Unix 1700009999)
    [": 1700000000:5;echo hi".toList, ": 1700000100:0;ls \\".toList, "-l".toList]
    (by decide)).2.1

/-! ## What reaches the decision function -/

/-- A call of `handleCommand` leaves the log of the recorded decision function
as it was, or adds the command, which is then complete. -/
theorem handleCommand_recording_log {σ ε : Type} (fromTimestamp : Time)
    (cmd : HistoryCommand) (callback : Callback σ ε) (s : σ) (log : List HistoryCommand) :
    (handleCommand fromTimestamp cmd (recording callback) (s, log)).2.2 = log ∨
    ((handleCommand fromTimestamp cmd (recording callback) (s, log)).2.2 = log ++ [cmd] ∧
      cmd.ParseFinished = true) := by
  cases hf : cmd.ParseFinished
  · left
    simp [handleCommand, hf]
  · by_cases hb : strings.TrimSpace cmd.Command = []
    · left
      simp [handleCommand, hf, hb]
    · cases hg : (cmd.Timestamp.IsZero || cmd.Timestamp.After fromTimestamp)
      · left
        simp [handleCommand, hf, hb, hg]
      · right
        refine ⟨?_, rfl⟩
        simp only [handleCommand, hf, hb, hg, recording]
        rcases callback cmd s with ⟨⟨st, err⟩, s1⟩
        cases err <;> simp

theorem handleCommand_recording_finished {σ ε : Type} (fromTimestamp : Time)
    (cmd : HistoryCommand) (callback : Callback σ ε) (s : σ × List HistoryCommand)
    (hs : ∀ c ∈ s.2, c.ParseFinished = true) :
    ∀ c ∈ (handleCommand fromTimestamp cmd (recording callback) s).2.2,
      c.ParseFinished = true := by
  rcases s with ⟨s0, log⟩
  intro c hc
  rcases handleCommand_recording_log fromTimestamp cmd callback s0 log with h | ⟨h, hf⟩
  · rw [h] at hc
    exact hs c hc
  · rw [h] at hc
    rcases List.mem_append.mp hc with hc | hc
    · exact hs c hc
    · simp only [List.mem_singleton] at hc
      rw [hc]
      exact hf

theorem scanLines_recording_finished {σ ε : Type} (clock : Nat → Time) (fromTimestamp : Time)
    (callback : Callback σ ε) (lines : List Str) (st : ScanState (σ × List HistoryCommand))
    (hs : ∀ c ∈ st.store.2, c.ParseFinished = true) :
    ∀ c ∈ (scanLines clock fromTimestamp (recording callback) lines st).1.store.2,
      c.ParseFinished = true := by
  induction lines generalizing st with
  | nil => exact hs
  | cons l ls ih =>
    simp only [scanLines]
    split
    · exact ih { st with lineNumber := st.lineNumber + 1 } hs
    · rcases processHistoryLine (clock (st.lineNumber + 1)) l st.commandBuilder
        st.currentCommand with ⟨builder, cmd⟩
      simp only
      have hstep := handleCommand_recording_finished fromTimestamp cmd callback st.store hs
      rcases hH : handleCommand fromTimestamp cmd (recording callback) st.store
        with ⟨⟨status, err⟩, store1⟩
      rw [hH] at hstep
      cases err with
      | some e => exact hstep
      | none =>
        simp only
        split
        · exact ih ⟨updateStats st.h status, [], none, st.lineNumber + 1, store1,
            st.handled ++ [cmd]⟩ hstep
        · exact ih ⟨updateStats st.h status, builder, some cmd, st.lineNumber + 1, store1,
            st.handled ++ [cmd]⟩ hstep

theorem finalizeCommand_recording_finished {σ ε : Type} (fromTimestamp : Time)
    (callback : Callback σ ε) (st : ScanState (σ × List HistoryCommand))
    (hs : ∀ c ∈ st.store.2, c.ParseFinished = true) :
    ∀ c ∈ (finalizeCommand fromTimestamp (recording callback) st).1.store.2,
      c.ParseFinished = true := by
  simp only [finalizeCommand]
  cases hc : st.currentCommand with
  | none => exact hs
  | some c0 =>
    simp only
    have hstep := handleCommand_recording_finished fromTimestamp
      { c0 with ParseFinished := true, Command := st.commandBuilder } callback st.store hs
    rcases hH : handleCommand fromTimestamp
      { c0 with ParseFinished := true, Command := st.commandBuilder } (recording callback)
      st.store with ⟨⟨status, err⟩, store1⟩
    rw [hH] at hstep
    exact hstep

/-- C11: for every sequence of input lines and every decision function, each
command that `ParseBashHistory` hands to the decision function (each entry of
the log of its calls) has `ParseFinished = true`; and for a command still in
progress `handleCommand` returns `InProgress` without error and without
invoking the decision function (store and call log unchanged). -/
theorem only_finished_commands_reach_callback {σ ε : Type} (h : HistoryIngestor)
    (clock : Nat → Time) (lines : List Str) (fromTimestamp : Time)
    (callback : Callback σ ε) (store : σ) :
    (∀ c ∈ (ParseBashHistory h clock lines fromTimestamp (recording callback)
        (store, [])).1.store.2, c.ParseFinished = true) ∧
    (∀ (cmd : HistoryCommand) (s : σ) (log : List HistoryCommand),
      cmd.ParseFinished = false →
      handleCommand fromTimestamp cmd (recording callback) (s, log) =
        ((CommandImportedStatusInProgress, none), (s, log))) := by
  constructor
  · have hscan := scanLines_recording_finished clock fromTimestamp callback lines
      (ScanState.start h (store, [])) (by simp [ScanState.start])
    simp only [ParseBashHistory]
    rcases hS : scanLines clock fromTimestamp (recording callback) lines
      (ScanState.start h (store, [])) with ⟨st1, err⟩
    rw [hS] at hscan
    cases err with
    | some e => exact hscan
    | none => exact finalizeCommand_recording_finished fromTimestamp callback st1 hscan
  · intro cmd s log hf
    exact handleCommand_unfinished fromTimestamp cmd (recording callback) (s, log) hf

/-- C12: for a complete command whose text is empty after trimming white space,
whatever its timestamp and the watermark, `handleCommand` returns `Skipped`
without error and does not invoke the decision function (store and call log
unchanged); `Skipped` is not `New`. -/
theorem empty_command_skipped {σ ε : Type} (fromTimestamp : Time) (cmd : HistoryCommand)
    (callback : Callback σ ε) (s : σ) (log : List HistoryCommand)
    (hfin : cmd.ParseFinished = true) (hempty : strings.TrimSpace cmd.Command = []) :
    handleCommand fromTimestamp cmd (recording callback) (s, log) =
      ((CommandImportedStatusSkipped, none), (s, log)) ∧
    handleCommand fromTimestamp cmd callback s = ((CommandImportedStatusSkipped, none), s) ∧
    CommandImportedStatusSkipped ≠ CommandImportedStatusNew := by
  refine ⟨?_, ?_, by decide⟩
  · simp [handleCommand, hfin, hempty]
  · simp [handleCommand, hfin, hempty]

theorem empty_command_witness :
    handleCommand (Time.Unix 100) ⟨Time.Unix 200, " \t ".toList, 0, true⟩
        (recording (storeAll : Callback _ Unit)) ([], []) =
      ((CommandImportedStatusSkipped, none), ([], [])) :=
  (empty_command_skipped (Time.Unix 100) ⟨Time.Unix 200, " \t ".toList, 0, true⟩
    (storeAll : Callback _ Unit) [] [] rfl (by decide)).1

/-! ## Counters -/

/-- C13, as stated, fails: a pass over the single line `: 1700000000:0;ls` with
the watermark at that same instant does not hand the command to the decision
function, yet counts it: `parsedCmdCount` and `skippedCmdCount` become 1. -/
theorem watermark_excluded_command_is_counted :
    (ParseBashHistory NewHistoryIngestor (fun _ => Time.Unix 1700000500)
        [": 1700000000:0;ls".toList] (Time.Unix 1700000000)
        (storeAll : Callback _ Unit) []).1.store = [] ∧
    (ParseBashHistory NewHistoryIngestor (fun _ => Time.Unix 1700000500)
        [": 1700000000:0;ls".toList] (Time.Unix 1700000000)
        (storeAll : Callback _ Unit) []).1.h = ⟨1, 0, 1, 0, 0, 0⟩ ∧
    (ParseBashHistory NewHistoryIngestor (fun _ => Time.Unix 1700000500)
        [": 1700000000:0;ls".toList] (Time.Unix 1700000000)
        (storeAll : Callback _ Unit) []).1.h ≠ NewHistoryIngestor := by
  decide

theorem updateStats_Skipped (h : HistoryIngestor) :
    updateStats h CommandImportedStatusSkipped =
      { h with parsedCmdCount := h.parsedCmdCount + 1
               skippedCmdCount := h.skippedCmdCount + 1 } := by
  simp [updateStats, CommandImportedStatusNew, CommandImportedStatusInProgress,
    CommandImportedStatusSkipped, CommandImportedStatusError,
    CommandImportedStatusFilteredOut, CommandImportedStatusAlreadyExists]

/-- C13, amended: a complete, non-empty command excluded by the watermark gate
(non-zero timestamp not strictly after the watermark) is answered `Skipped`
without invoking the decision function, and `updateStats` counts it as such:
`parsedCmdCount` and `skippedCmdCount` grow by one, the other counters are
unchanged. -/
theorem watermark_excluded_counted_as_skipped {σ ε : Type} (fromTimestamp : Time)
    (cmd : HistoryCommand) (callback : Callback σ ε) (s : σ) (log : List HistoryCommand)
    (h : HistoryIngestor)
    (hfin : cmd.ParseFinished = true) (hne : strings.TrimSpace cmd.Command ≠ [])
    (hz : cmd.Timestamp.IsZero = false) (hna : cmd.Timestamp.After fromTimestamp = false) :
    handleCommand fromTimestamp cmd (recording callback) (s, log) =
      ((CommandImportedStatusSkipped, none), (s, log)) ∧
    updateStats h (handleCommand fromTimestamp cmd callback s).1.1 =
      { h with parsedCmdCount := h.parsedCmdCount + 1
               skippedCmdCount := h.skippedCmdCount + 1 } := by
  have h1 : handleCommand fromTimestamp cmd callback s =
      ((CommandImportedStatusSkipped, none), s) := by
    simp [handleCommand, hfin, hne, hz, hna]
  refine ⟨by simp [handleCommand, hfin, hne, hz, hna], ?_⟩
  rw [h1]
  exact updateStats_Skipped h

theorem watermark_excluded_witness :
    updateStats NewHistoryIngestor
        (handleCommand (Time.Unix 1700000000)
          ⟨Time.Unix 1700000000, "ls".toList, 0, true⟩ (storeAll : Callback _ Unit) []).1.1 =
      ⟨1, 0, 1, 0, 0, 0⟩ :=
  (watermark_excluded_counted_as_skipped (Time.Unix 1700000000)
    ⟨Time.Unix 1700000000, "ls".toList, 0, true⟩ (storeAll : Callback _ Unit) [] []
    NewHistoryIngestor rfl (by decide) (by decide) (by decide)).2

/-! ## Blank lines and trailing backslashes -/

/-- C14, as stated, fails: for the lines `echo a\`, a blank line and `echo b`
the blank line ends the command in progress, whose text `echo a` holds no blank
line, and `echo b` becomes a second command. -/
theorem blank_line_splits_command :
    (ParseBashHistory NewHistoryIngestor (fun _ => Time.Unix 1700000000)
        ["echo a\\".toList, [], "echo b".toList] Time.zero
        (storeAll : Callback _ Unit) []).1.store =
      [⟨Time.Unix 1700000000, "echo a".toList, 0, true⟩,
       ⟨Time.Unix 1700000000, "echo b".toList, 0, true⟩] := by
  decide

/-- C14, amended: a blank line that arrives while a command is in progress is
not skipped: it is the final fragment of that command, which is completed on
the blank line with text `cleanCommand` of the buffer accumulated so far (the
blank line adds nothing) and classified; unless the decision function fails,
the loop goes on idle, so the next line starts a new command. A blank line that
arrives when no command is in progress produces no command: only the line
number advances. -/
theorem blank_line_in_progress_completes {σ ε : Type} (clock : Nat → Time)
    (fromTimestamp : Time) (callback : Callback σ ε) :
    (∀ (st : ScanState σ) (c : HistoryCommand) (rest : List Str),
      st.currentCommand = some c → c.ParseFinished = false →
      scanLines clock fromTimestamp callback ([] :: rest) st =
        match handleCommand fromTimestamp
          { c with Command := cleanCommand st.commandBuilder, ParseFinished := true }
          callback st.store with
        | ((importStatus, some err), store) =>
          ({ h := updateStats st.h importStatus
             commandBuilder := st.commandBuilder
             currentCommand :=
               some { c with Command := cleanCommand st.commandBuilder, ParseFinished := true }
             lineNumber := st.lineNumber + 1
             store := store
             handled := st.handled ++
               [{ c with Command := cleanCommand st.commandBuilder, ParseFinished := true }] },
            some err)
        | ((importStatus, none), store) =>
          scanLines clock fromTimestamp callback rest
            { h := updateStats st.h importStatus
              commandBuilder := []
              currentCommand := none
              lineNumber := st.lineNumber + 1
              store := store
              handled := st.handled ++
                [{ c with Command := cleanCommand st.commandBuilder, ParseFinished := true }] }) ∧
    (∀ (st : ScanState σ) (rest : List Str), st.currentCommand = none →
      scanLines clock fromTimestamp callback ([] :: rest) st =
        scanLines clock fromTimestamp callback rest
          { st with lineNumber := st.lineNumber + 1 }) := by
  constructor
  · intro st c rest hc hu
    have hskip : ¬ (([] : Str) = [] ∧ st.currentCommand = none) := by simp [hc]
    have hp := processHistoryLine_busy_final (clock (st.lineNumber + 1)) []
      st.commandBuilder c (by decide)
    rw [List.append_nil, ← hc] at hp
    exact scanLines_finished clock fromTimestamp callback [] rest st _ _ hskip hp rfl
  · intro st rest hc
    exact scanLines_blank clock fromTimestamp callback rest st hc

theorem blank_line_witness :
    scanLines (fun _ => Time.Unix 1700000000) Time.zero (storeAll : Callback _ Unit)
        ([] :: ["echo b".toList])
        ⟨NewHistoryIngestor, "echo a\n".toList, some ⟨Time.Unix 1700000000, [], 0, false⟩, 1,
          [], []⟩ =
      (⟨⟨2, 2, 0, 0, 0, 0⟩, [], none, 3,
         [⟨Time.Unix 1700000000, "echo a".toList, 0, true⟩,
          ⟨Time.Unix 1700000000, "echo b".toList, 0, true⟩],
         [⟨Time.Unix 1700000000, "echo a".toList, 0, true⟩,
          ⟨Time.Unix 1700000000, "echo b".toList, 0, true⟩]⟩, none) :=
  (blank_line_in_progress_completes (fun _ => Time.Unix 1700000000) Time.zero
    (storeAll : Callback _ Unit)).1
    ⟨NewHistoryIngestor, "echo a\n".toList, some ⟨Time.Unix 1700000000, [], 0, false⟩, 1,
      [], []⟩
    ⟨Time.Unix 1700000000, [], 0, false⟩ ["echo b".toList] rfl rfl

/-- C15, as stated, fails: the line `echo a\\`, whose final backslash is
escaped, is treated as a continuation: the parser removes its last backslash,
appends a newline and leaves the command unfinished; with a following line
`echo b` the pass delivers one command with text `echo a\` + newline +
`echo b`. -/
theorem escaped_backslash_continues :
    processHistoryLine (Time.Unix 1700000000) "echo a\\\\".toList [] none =
      ("echo a\\\n".toList, ⟨Time.Unix 1700000000, [], 0, false⟩) ∧
    (ParseBashHistory NewHistoryIngestor (fun _ => Time.Unix 1700000000)
        ["echo a\\\\".toList, "echo b".toList] Time.zero
        (storeAll : Callback _ Unit) []).1.store =
      [⟨Time.Unix 1700000000, "echo a\\\necho b".toList, 0, true⟩] := by
  decide

theorem TrimRight_backslash (s : Str) :
    strings.TrimRight (s ++ ['\\']) [' ', '\t'] = s ++ ['\\'] := by
  simp [strings.TrimRight, List.dropWhile_cons]

theorem TrimSuffix_backslash (s : Str) :
    strings.TrimSuffix (s ++ ['\\']) ['\\'] = s := by
  have h : strings.HasSuffix (s ++ ['\\']) ['\\'] = true := by
    rw [HasSuffix_single]
    simp
  simp [strings.TrimSuffix, h]

/-- C15, amended: a line is treated as a continuation exactly when its command
part ends with a backslash, whether or not that backslash is itself escaped.
Such a line leaves the command unfinished and adds its fragment and a newline
to the buffer; a line ending in two backslashes keeps the first of them. A line
that does not end with a backslash is a final fragment and completes the
command. -/
theorem trailing_backslash_always_continues (now : Time) (line builder : Str) :
    (strings.HasSuffix line ['\\'] = true →
      processHistoryLine now line builder none =
        (builder ++ continuationFragment (parseFirstHistoryLine now line).2.2.1 ++ ['\n'],
          ⟨(parseFirstHistoryLine now line).1, [], (parseFirstHistoryLine now line).2.1,
            false⟩) ∧
      ∀ c : HistoryCommand, processHistoryLine now line builder (some c) =
        (builder ++ continuationFragment line ++ ['\n'], c)) ∧
    (∀ s : Str, continuationFragment (s ++ ['\\', '\\']) = s ++ ['\\']) ∧
    (strings.HasSuffix line ['\\'] = false →
      (processHistoryLine now line builder none).2.ParseFinished = true ∧
      ∀ c : HistoryCommand,
        (processHistoryLine now line builder (some c)).2.ParseFinished = true) := by
  refine ⟨?_, ?_, ?_⟩
  · intro hs
    have hpart := commandPart_HasSuffix now line
    rw [hs] at hpart
    rcases hP : parseFirstHistoryLine now line with ⟨ts, el, part, ext⟩
    rw [hP] at hpart
    refine ⟨?_, ?_⟩
    · rw [processHistoryLine_idle_cont now line builder part ts el ext hP hpart]
      rfl
    · intro c
      rw [processHistoryLine_busy_cont now line builder c hs]
      rfl
  · intro s
    have h2 : s ++ ['\\', '\\'] = (s ++ ['\\']) ++ ['\\'] := by simp
    rw [continuationFragment, h2, TrimSuffix_backslash, TrimRight_backslash]
  · intro hs
    have hpart := commandPart_HasSuffix now line
    rw [hs] at hpart
    rcases hP : parseFirstHistoryLine now line with ⟨ts, el, part, ext⟩
    rw [hP] at hpart
    refine ⟨?_, ?_⟩
    · rw [processHistoryLine_idle_final now line builder part ts el ext hP hpart]
    · intro c
      rw [processHistoryLine_busy_final now line builder c hs]

theorem trailing_backslash_witness :
    processHistoryLine (Time.Unix 1700000000) "ls \\\\".toList "cd /\n".toList none =
      ("cd /\nls \\\n".toList, ⟨Time.Unix 1700000000, [], 0, false⟩) :=
  ((trailing_backslash_always_continues (Time.Unix 1700000000) "ls \\\\".toList
    "cd /\n".toList).1 (by decide)).1

/-! ## The elapsed time -/

/-- C16, as stated, fails: the well-formed header of `: 1700000000:-5;ls` gives
the elapsed value -5. -/
theorem negative_elapsed_is_accepted :
    parseFirstHistoryLine Time.zero ": 1700000000:-5;ls".toList =
      (Time.Unix 1700000000, -5, "ls".toList, true) ∧
    (parseFirstHistoryLine Time.zero ": 1700000000:-5;ls".toList).2.1 < 0 ∧
    (processHistoryLine Time.zero ": 1700000000:-5;ls".toList [] none).2.Elapsed = -5 := by
  decide

/-- The sign of what `ParseInt` reads follows the leading minus sign. -/
theorem ParseInt_sign (s : Str) (v : Int) (h : strconv.ParseInt s 64 = (v, none)) :
    (s.head? ≠ some '-' → 0 ≤ v) ∧ (s.head? = some '-' → v ≤ 0) := by
  cases s with
  | nil => simp [strconv.ParseInt] at h
  | cons x xs =>
    simp only [strconv.ParseInt] at h
    split at h
    · simp at h
    · rename_i un o hne hU
      split at h
      · simp at h
      · split at h
        · simp at h
        · simp only [Prod.mk.injEq, and_true] at h
          by_cases hx : x = '-'
          · subst hx
            simp only [decide_True, if_true] at h
            refine ⟨fun hh => absurd rfl hh, fun _ => ?_⟩
            omega
          · simp only [hx, decide_False, Bool.false_eq_true, if_false] at h
            refine ⟨fun _ => ?_, fun hh => ?_⟩
            · omega
            · simp only [List.head?_cons, Option.some.injEq] at hh
              exact absurd hh hx

theorem ParseTimestamp_elapsed (hdr : Str) (t : Time) (e : Int)
    (h : ParseTimestamp hdr = (t, e, none)) :
    ∃ f0 f1, strings.Split hdr ':' = [f0, f1] ∧ strconv.Atoi f1 = (e, none) := by
  simp only [ParseTimestamp, timestampFieldsCount] at h
  split at h
  · simp at h
  · rename_i hlen
    match hS : strings.Split hdr ':', hlen with
    | [f0, f1], _ =>
      refine ⟨f0, f1, rfl, ?_⟩
      rw [hS] at h
      simp only [List.getD_cons_zero, List.getD_cons_succ] at h
      split at h
      · simp at h
      · split at h
        · simp at h
        · rename_i el hA
          simp only [Prod.mk.injEq, and_true] at h
          rw [hA, h.2]
    | [], hl => simp at hl
    | [_], hl => simp at hl
    | _ :: _ :: _ :: _, hl => simp at hl

/-- C16, amended: when the line is not in extended format (plain format or
malformed header) the elapsed value is 0; for a well-formed header it is the
integer that `Atoi` reads from the elapsed field, which is non-negative when
that field has no leading minus sign and zero or negative when it has one. -/
theorem elapsed_of_header (now : Time) (line : Str) :
    ((parseFirstHistoryLine now line).2.2.2 = false →
      (parseFirstHistoryLine now line).2.1 = 0) ∧
    ((parseFirstHistoryLine now line).2.2.2 = true →
      ∃ f0 f1, strings.Split (headerText line) ':' = [f0, f1] ∧
        strconv.Atoi f1 = ((parseFirstHistoryLine now line).2.1, none) ∧
        (f1.head? ≠ some '-' → 0 ≤ (parseFirstHistoryLine now line).2.1) ∧
        (f1.head? = some '-' → (parseFirstHistoryLine now line).2.1 ≤ 0)) := by
  rcases parseFirstHistoryLine_cases now line with h | ⟨hdr, c, t, e, rfl, hsemi, hP, h⟩
  · rw [h]
    exact ⟨fun _ => rfl, fun hh => by simp at hh⟩
  · rw [h]
    refine ⟨fun hh => by simp at hh, fun _ => ?_⟩
    obtain ⟨f0, f1, hS, hA⟩ := ParseTimestamp_elapsed hdr t e hP
    have hht : headerText (':' :: ' ' :: (hdr ++ ';' :: c)) = hdr := by
      simp only [headerText, List.drop_succ_cons, List.drop_zero]
      exact takeWhile_append_sep ';' hdr c hsemi
    have hsign := ParseInt_sign f1 e hA
    exact ⟨f0, f1, by rw [hht, hS], hA, hsign.1, hsign.2⟩

/-! ## Control characters -/

/-- C17: at the failing input `echo` ESC `hi` BEL, space, NUL, `x` neither
`removeControlCharacters` nor `cleanCommand` removes anything: the ASCII
control characters ESC (0x1b), BEL (0x07) and NUL (0x00) stay in the text. -/
theorem ascii_control_characters_are_kept :
    removeControlCharacters "echo\x1bhi\x07 \x00x".toList = "echo\x1bhi\x07 \x00x".toList ∧
    cleanCommand "echo\x1bhi\x07 \x00x".toList = "echo\x1bhi\x07 \x00x".toList ∧
    Char.ofNat 0x1b ∈ cleanCommand "echo\x1bhi\x07 \x00x".toList := by
  decide

/-! ## The counter invariant -/

theorem updateStats_New (h : HistoryIngestor) :
    updateStats h CommandImportedStatusNew =
      { h with parsedCmdCount := h.parsedCmdCount + 1
               importedCmdCount := h.importedCmdCount + 1 } := by
  simp [updateStats, CommandImportedStatusNew, CommandImportedStatusInProgress]

theorem updateStats_FilteredOut (h : HistoryIngestor) :
    updateStats h CommandImportedStatusFilteredOut =
      { h with parsedCmdCount := h.parsedCmdCount + 1
               filteredOutCmdCount := h.filteredOutCmdCount + 1 } := by
  simp [updateStats, CommandImportedStatusNew, CommandImportedStatusInProgress,
    CommandImportedStatusError, CommandImportedStatusFilteredOut]

theorem updateStats_AlreadyExists (h : HistoryIngestor) :
    updateStats h CommandImportedStatusAlreadyExists =
      { h with parsedCmdCount := h.parsedCmdCount + 1
               alreadyExistsCmdCount := h.alreadyExistsCmdCount + 1 } := by
  simp [updateStats, CommandImportedStatusNew, CommandImportedStatusInProgress,
    CommandImportedStatusError, CommandImportedStatusFilteredOut,
    CommandImportedStatusAlreadyExists]

theorem updateStats_Error (h : HistoryIngestor) :
    updateStats h CommandImportedStatusError =
      { h with parsedCmdCount := h.parsedCmdCount + 1
               errorCmdCount := h.errorCmdCount + 1 } := by
  simp [updateStats, CommandImportedStatusNew, CommandImportedStatusInProgress,
    CommandImportedStatusError]

theorem updateStats_balanced (h : HistoryIngestor) (s : CommandImportedStatus)
    (hs : definedStatus s) (hb : countersBalanced h) : countersBalanced (updateStats h s) := by
  rcases hs with rfl | rfl | rfl | rfl | rfl | rfl
  · rw [updateStats_New]
    simp only [countersBalanced] at *
    omega
  · rw [updateStats_Skipped]
    simp only [countersBalanced] at *
    omega
  · rw [updateStats_FilteredOut]
    simp only [countersBalanced] at *
    omega
  · rw [updateStats_AlreadyExists]
    simp only [countersBalanced] at *
    omega
  · rw [updateStats_Error]
    simp only [countersBalanced] at *
    omega
  · rw [updateStats_InProgress]
    exact hb

theorem foldl_updateStats_balanced (statuses : List CommandImportedStatus)
    (h : HistoryIngestor) (hs : ∀ s ∈ statuses, definedStatus s) (hb : countersBalanced h) :
    countersBalanced (statuses.foldl updateStats h) := by
  induction statuses generalizing h with
  | nil => exact hb
  | cons s ss ih =>
    rw [List.foldl_cons]
    exact ih (updateStats h s) (fun x hx => hs x (by simp [hx]))
      (updateStats_balanced h s (hs s (by simp)) hb)

/-- C18: starting from `NewHistoryIngestor`, after any sequence of `updateStats`
calls with statuses among the six defined values, `parsedCmdCount` is the sum
of the five category counters; a call with `New`, `Skipped`, `FilteredOut`,
`AlreadyExists` or `Error` adds one to `parsedCmdCount` and to the counter of
that category and leaves the others as they are; a call with `InProgress`
changes nothing. -/
theorem counter_invariant (statuses : List CommandImportedStatus)
    (hs : ∀ s ∈ statuses, definedStatus s) :
    countersBalanced (statuses.foldl updateStats NewHistoryIngestor) ∧
    (∀ h : HistoryIngestor,
      updateStats h CommandImportedStatusNew =
        { h with parsedCmdCount := h.parsedCmdCount + 1
                 importedCmdCount := h.importedCmdCount + 1 } ∧
      updateStats h CommandImportedStatusSkipped =
        { h with parsedCmdCount := h.parsedCmdCount + 1
                 skippedCmdCount := h.skippedCmdCount + 1 } ∧
      updateStats h CommandImportedStatusFilteredOut =
        { h with parsedCmdCount := h.parsedCmdCount + 1
                 filteredOutCmdCount := h.filteredOutCmdCount + 1 } ∧
      updateStats h CommandImportedStatusAlreadyExists =
        { h with parsedCmdCount := h.parsedCmdCount + 1
                 alreadyExistsCmdCount := h.alreadyExistsCmdCount + 1 } ∧
      updateStats h CommandImportedStatusError =
        { h with parsedCmdCount := h.parsedCmdCount + 1
                 errorCmdCount := h.errorCmdCount + 1 } ∧
      updateStats h CommandImportedStatusInProgress = h) :=
  ⟨foldl_updateStats_balanced statuses NewHistoryIngestor hs
      (by simp [countersBalanced, NewHistoryIngestor]),
   fun h => ⟨updateStats_New h, updateStats_Skipped h, updateStats_FilteredOut h,
     updateStats_AlreadyExists h, updateStats_Error h, updateStats_InProgress h⟩⟩

theorem counter_invariant_witness :
    countersBalanced
      ([CommandImportedStatusNew, CommandImportedStatusInProgress, CommandImportedStatusSkipped,
        CommandImportedStatusError, CommandImportedStatusNew, CommandImportedStatusFilteredOut,
        CommandImportedStatusAlreadyExists].foldl updateStats NewHistoryIngestor) :=
  (counter_invariant
    [CommandImportedStatusNew, CommandImportedStatusInProgress, CommandImportedStatusSkipped,
      CommandImportedStatusError, CommandImportedStatusNew, CommandImportedStatusFilteredOut,
      CommandImportedStatusAlreadyExists]
    (by simp [definedStatus])).1

end processors
